import Mathlib

/-!
Verification development for the nibbler repository: sequential-access
cursors over byte and UTF-8 character data (read / unread / peek, named
character sets, run-consuming scans, and a stream-backed variant that
refills an internal buffer from an external byte source).

Conventions of the shallow embedding:
* Go byte values and Unicode code points are `Nat`.
* A Go `error` is `Option GoErr`; functions that return `(value, error)`
  become `(Except GoErr value) × state` with explicit state passing.
  `GoErr.eof` models `io.EOF`; `GoErr.msg s` models an error built with
  `fmt.Errorf` (never equal to `io.EOF`).
* Loops whose iteration count depends on the data are written with a fuel
  parameter; theorems supply enough fuel for the run they describe.
* `List.getD` stands in for Go slice indexing; every use is guarded the
  same way the source guards its index.
-/

set_option maxHeartbeats 1600000

/-- Go error model: `io.EOF` versus any error produced by `fmt.Errorf`.
Comparisons in the source are only ever `err == io.EOF`, which the
constructor distinction captures. -/
inductive GoErr where
  | eof
  | msg (s : String)
deriving DecidableEq

/-- The error text of `fmt.Errorf("invalid UTF-8 string element")`. -/
def invalidUTF8Error : GoErr := GoErr.msg ("invalid UTF-8 string element")

/-- The error text of `fmt.Errorf("already at start of string")`. -/
def atStartOfStringError : GoErr := GoErr.msg ("already at start of string")

/-- The error text of `fmt.Errorf("already at the start of the backing buffer")`. -/
def atStartOfBackingBufferError : GoErr := GoErr.msg ("already at the start of the backing buffer")

/-- The error text of `fmt.Errorf("already at the start of the stream buffer")`. -/
def atStartOfStreamBufferError : GoErr := GoErr.msg ("already at the start of the stream buffer")

/-- The error text of `fmt.Errorf("already at start of rune stream")`. -/
def atStartOfRuneStreamError : GoErr := GoErr.msg ("already at start of rune stream")

/-- The error text of `fmt.Errorf("read of stream returned no bytes, no eof, and no error")`. -/
def emptyReadError : GoErr := GoErr.msg ("read of stream returned no bytes, no eof, and no error")

/-- The error text of `fmt.Errorf("no character set with that name is defined")`. -/
def undefinedSetError : GoErr := GoErr.msg ("no character set with that name is defined")

/-- Result of decoding the first code point of a byte sequence, mirroring
Go `utf8.DecodeRune`: `ok cp w` is a successful decode of code point `cp`
spanning `w` bytes; `invalid` is a malformed sequence; `incomplete` is a
(possibly empty) strict prefix of some valid encoding — Go reports both
failure cases as `(RuneError, 0 or 1)`, but the streaming decoder model
needs the distinction between "malformed" and "not enough bytes yet". -/
inductive Utf8Dec where
  | ok (cp w : Nat)
  | invalid
  | incomplete
deriving DecidableEq

/-- Result of decoding the final code point of a byte sequence, mirroring
Go `utf8.DecodeLastRune`: `empty` is Go's `(RuneError, 0)` on an empty
input, `invalid` its `(RuneError, 1)` on a malformed tail. -/
inductive Utf8LastDec where
  | ok (cp w : Nat)
  | invalid
  | empty
deriving DecidableEq

/-- First-code-point UTF-8 decoder with Go's exact acceptance ranges
(`utf8.acceptRanges`): the second byte's window depends on the first byte
so that overlong encodings and surrogates are rejected. -/
def utf8DecodeFirst : List Nat → Utf8Dec
  | [] => Utf8Dec.incomplete
  | b0 :: rest =>
    if b0 < 0x80 then Utf8Dec.ok b0 1
    else if b0 < 0xC2 then Utf8Dec.invalid
    else if b0 ≤ 0xDF then
      match rest with
      | [] => Utf8Dec.incomplete
      | b1 :: _ =>
        if 0x80 ≤ b1 ∧ b1 ≤ 0xBF then Utf8Dec.ok ((b0 - 0xC0) * 64 + (b1 - 0x80)) 2
        else Utf8Dec.invalid
    else if b0 ≤ 0xEF then
      match rest with
      | [] => Utf8Dec.incomplete
      | b1 :: rest2 =>
        if (if b0 = 0xE0 then 0xA0 else 0x80) ≤ b1 ∧ b1 ≤ (if b0 = 0xED then 0x9F else 0xBF) then
          match rest2 with
          | [] => Utf8Dec.incomplete
          | b2 :: _ =>
            if 0x80 ≤ b2 ∧ b2 ≤ 0xBF then
              Utf8Dec.ok ((b0 - 0xE0) * 4096 + (b1 - 0x80) * 64 + (b2 - 0x80)) 3
            else Utf8Dec.invalid
        else Utf8Dec.invalid
    else if b0 ≤ 0xF4 then
      match rest with
      | [] => Utf8Dec.incomplete
      | b1 :: rest2 =>
        if (if b0 = 0xF0 then 0x90 else 0x80) ≤ b1 ∧ b1 ≤ (if b0 = 0xF4 then 0x8F else 0xBF) then
          match rest2 with
          | [] => Utf8Dec.incomplete
          | b2 :: rest3 =>
            if 0x80 ≤ b2 ∧ b2 ≤ 0xBF then
              match rest3 with
              | [] => Utf8Dec.incomplete
              | b3 :: _ =>
                if 0x80 ≤ b3 ∧ b3 ≤ 0xBF then
                  Utf8Dec.ok ((b0 - 0xF0) * 262144 + (b1 - 0x80) * 4096 + (b2 - 0x80) * 64 + (b3 - 0x80)) 4
                else Utf8Dec.invalid
          else Utf8Dec.invalid
        else Utf8Dec.invalid
    else Utf8Dec.invalid

/-- Go `utf8.RuneStart`: a byte that is not a continuation byte. -/
def runeStartByte (b : Nat) : Bool :=
  if b < 0x80 then true else if 0xC0 ≤ b then true else false

/-- Backward search of Go `utf8.DecodeLastRune`: among the bytes preceding
the final byte (given innermost-first), the distance of the nearest
rune-start byte, looking at most `n` bytes back. -/
def searchRuneStart : List Nat → Nat → Option Nat
  | _, 0 => none
  | [], _ => none
  | b :: bs, n + 1 =>
    if runeStartByte b then some 0 else (searchRuneStart bs n).map (· + 1)

/-- Last-code-point UTF-8 decoder mirroring Go `utf8.DecodeLastRune`:
an ASCII final byte decodes directly; otherwise the decoder backs up at
most three further bytes to the nearest rune-start byte, decodes forward
from it, and demands that the decoded width spans exactly to the end. -/
def utf8DecodeLast (s : List Nat) : Utf8LastDec :=
  match s.reverse with
  | [] => Utf8LastDec.empty
  | b :: rest =>
    if b < 0x80 then Utf8LastDec.ok b 1
    else
      match searchRuneStart rest 3 with
      | none => Utf8LastDec.invalid
      | some k =>
        match utf8DecodeFirst (s.drop (s.length - (k + 2))) with
        | Utf8Dec.ok cp w => if w = k + 2 then Utf8LastDec.ok cp w else Utf8LastDec.invalid
        | _ => Utf8LastDec.invalid

/-- Canonical UTF-8 encoding of a code point (Go `utf8.EncodeRune` on a
valid scalar value). -/
def utf8Encode (cp : Nat) : List Nat :=
  if cp < 0x80 then [cp]
  else if cp < 0x800 then [0xC0 + cp / 64, 0x80 + cp % 64]
  else if cp < 0x10000 then [0xE0 + cp / 4096, 0x80 + cp / 64 % 64, 0x80 + cp % 64]
  else [0xF0 + cp / 262144, 0x80 + cp / 4096 % 64, 0x80 + cp / 64 % 64, 0x80 + cp % 64]

/-- A Unicode scalar value: in range and not a surrogate. -/
def ValidScalar (cp : Nat) : Prop :=
  cp < 0x110000 ∧ ¬(0xD800 ≤ cp ∧ cp ≤ 0xDFFF)

instance (cp : Nat) : Decidable (ValidScalar cp) := by
  unfold ValidScalar; infer_instance

/-- The map from set name to set of units (`NamedCharacterSetsMap` for the
byte cursors); a Go `map[byte]bool` set becomes a list of member bytes. -/
structure NamedCharacterSetsMap where
  mapOfSetsByName : List (String × List Nat)

/-- Lookup of a named set; Go returns `nil` for an absent key, modelled by
`none`. -/
def NamedCharacterSetsMap.retrieveNamedCharacterSet (m : NamedCharacterSetsMap) (nameOfSet : String) : Option (List Nat) :=
  m.mapOfSetsByName.lookup nameOfSet

/-- The read/unread capability shared by the `ByteNibbler` and
`UTF8Nibbler` interfaces: both expose exactly a read of the next unit and
a retraction, each threading cursor state.  The run-consuming helpers of
the source are written against this interface. -/
structure NibblerOps (σ : Type) where
  readUnit : σ → (Except GoErr Nat) × σ
  unreadUnit : σ → (Except GoErr Unit) × σ

/-- Translation of the shared helper `readConsecutiveCharactersMatching`
(`utf8_nibbler.go`): read units while the matcher accepts them; on `io.EOF`
return `(nil, io.EOF)` if nothing was accumulated and `(run, nil)`
otherwise; on any other error return `(run, err)`; on a non-matching unit
unread it and return `(run, nil)`. -/
def readConsecutiveCharactersMatching (ops : NibblerOps σ) (matcher : Nat → Bool) : Nat → σ → List Nat → Option (List Nat × Option GoErr × σ)
  | 0, _, _ => none
  | fuel + 1, s, acc =>
    match ops.readUnit s with
    | (Except.error e, s1) =>
      if e = GoErr.eof then
        if acc.isEmpty then some ([], some GoErr.eof, s1)
        else some (acc, none, s1)
      else some (acc, some e, s1)
    | (Except.ok c, s1) =>
      if matcher c then readConsecutiveCharactersMatching ops matcher fuel s1 (acc ++ [c])
      else some (acc, none, (ops.unreadUnit s1).2)

/-- Translation of `readConsecutiveCharactersNotMatching`
(`utf8_nibbler.go`): like the matching variant but keeping units the
matcher rejects; note the source's error branch returns `(run, nil)` for
every non-EOF error as well. -/
def readConsecutiveCharactersNotMatching (ops : NibblerOps σ) (matcher : Nat → Bool) : Nat → σ → List Nat → Option (List Nat × Option GoErr × σ)
  | 0, _, _ => none
  | fuel + 1, s, acc =>
    match ops.readUnit s with
    | (Except.error e, s1) =>
      if e = GoErr.eof ∧ acc.isEmpty then some ([], some GoErr.eof, s1)
      else some (acc, none, s1)
    | (Except.ok c, s1) =>
      if matcher c then some (acc, none, (ops.unreadUnit s1).2)
      else readConsecutiveCharactersNotMatching ops matcher fuel s1 (acc ++ [c])

/-- Translation of `readConsecutiveCharactersMatchingInto`
(`utf8_nibbler.go`): fill `receiver` starting at slot `i` with matching
units; the count is a Go `int` because the non-EOF error branch returns
`-1`. -/
def readConsecutiveCharactersMatchingInto (ops : NibblerOps σ) (matcher : Nat → Bool) : Nat → σ → List Nat → Nat → Option (Int × Option GoErr × List Nat × σ)
  | 0, _, _, _ => none
  | fuel + 1, s, receiver, i =>
    if i < receiver.length then
      match ops.readUnit s with
      | (Except.error e, s1) =>
        if e = GoErr.eof then
          if i = 0 then some (0, some GoErr.eof, receiver, s1)
          else some ((i : Int), none, receiver, s1)
        else some (-1, some e, receiver, s1)
      | (Except.ok c, s1) =>
        if matcher c then readConsecutiveCharactersMatchingInto ops matcher fuel s1 (receiver.set i c) (i + 1)
        else some ((i : Int), none, receiver, (ops.unreadUnit s1).2)
    else some ((receiver.length : Int), none, receiver, s)

/-- Translation of `readConsecutiveCharactersNotMatchingInto`
(`utf8_nibbler.go`): the not-matching counterpart of the into variant. -/
def readConsecutiveCharactersNotMatchingInto (ops : NibblerOps σ) (matcher : Nat → Bool) : Nat → σ → List Nat → Nat → Option (Int × Option GoErr × List Nat × σ)
  | 0, _, _, _ => none
  | fuel + 1, s, receiver, i =>
    if i < receiver.length then
      match ops.readUnit s with
      | (Except.error e, s1) =>
        if e = GoErr.eof then
          if i = 0 then some (0, some GoErr.eof, receiver, s1)
          else some ((i : Int), none, receiver, s1)
        else some (-1, some e, receiver, s1)
      | (Except.ok c, s1) =>
        if matcher c then some ((i : Int), none, receiver, (ops.unreadUnit s1).2)
        else readConsecutiveCharactersNotMatchingInto ops matcher fuel s1 (receiver.set i c) (i + 1)
    else some ((receiver.length : Int), none, receiver, s)

/-- Scan loop of `byteNibblerDelegate.readNextBytesMatchingSet`: read bytes
while they are members of the set; any read error — `io.EOF` included — is
returned together with the accumulated bytes; a non-member byte is unread
(its error ignored) and the run is returned with no error. -/
def readNextBytesMatchingSetLoop (ops : NibblerOps σ) (setMap : List Nat) : Nat → σ → List Nat → Option (List Nat × Option GoErr × σ)
  | 0, _, _ => none
  | fuel + 1, s, acc =>
    match ops.readUnit s with
    | (Except.error e, s1) => some (acc, some e, s1)
    | (Except.ok b, s1) =>
      if setMap.contains b then readNextBytesMatchingSetLoop ops setMap fuel s1 (acc ++ [b])
      else some (acc, none, (ops.unreadUnit s1).2)

/-- Scan loop of `byteNibblerDelegate.readNextBytesNotMatchingSet`: same
error policy, keeping the bytes that are not members of the set. -/
def readNextBytesNotMatchingSetLoop (ops : NibblerOps σ) (setMap : List Nat) : Nat → σ → List Nat → Option (List Nat × Option GoErr × σ)
  | 0, _, _ => none
  | fuel + 1, s, acc =>
    match ops.readUnit s with
    | (Except.error e, s1) => some (acc, some e, s1)
    | (Except.ok b, s1) =>
      if setMap.contains b then some (acc, none, (ops.unreadUnit s1).2)
      else readNextBytesNotMatchingSetLoop ops setMap fuel s1 (acc ++ [b])

/-- `byteNibblerDelegate.readNextBytesMatchingSet`: reject a missing map or
a missing set name with an error, otherwise run the matching scan loop. -/
def readNextBytesMatchingSet (ops : NibblerOps σ) (maybeSets : Option NamedCharacterSetsMap) (setName : String) (fuel : Nat) (s : σ) : Option (List Nat × Option GoErr × σ) :=
  match maybeSets with
  | none => some ([], some undefinedSetError, s)
  | some sets =>
    match sets.retrieveNamedCharacterSet setName with
    | none => some ([], some undefinedSetError, s)
    | some setMap => readNextBytesMatchingSetLoop ops setMap fuel s []

/-- `byteNibblerDelegate.readNextBytesNotMatchingSet`: the not-matching
wrapper with the same configuration errors. -/
def readNextBytesNotMatchingSet (ops : NibblerOps σ) (maybeSets : Option NamedCharacterSetsMap) (setName : String) (fuel : Nat) (s : σ) : Option (List Nat × Option GoErr × σ) :=
  match maybeSets with
  | none => some ([], some undefinedSetError, s)
  | some sets =>
    match sets.retrieveNamedCharacterSet setName with
    | none => some ([], some undefinedSetError, s)
    | some setMap => readNextBytesNotMatchingSetLoop ops setMap fuel s []

/-- `ByteSliceNibbler`: a fixed byte buffer, the index of the next unread
byte, and the optional attached named-set map. -/
structure ByteSliceNibbler where
  backingBuffer : List Nat
  indexInBufferOfNextReadByte : Nat
  namedCharacterSets : Option NamedCharacterSetsMap

/-- `ByteSliceNibbler.ReadByte`: `io.EOF` at the end of the buffer,
otherwise the byte at the index, advancing by one. -/
def ByteSliceNibbler.ReadByte (nib : ByteSliceNibbler) : (Except GoErr Nat) × ByteSliceNibbler :=
  if nib.backingBuffer.length ≤ nib.indexInBufferOfNextReadByte then
    (Except.error GoErr.eof, nib)
  else
    (Except.ok (nib.backingBuffer.getD nib.indexInBufferOfNextReadByte 0),
     { nib with indexInBufferOfNextReadByte := nib.indexInBufferOfNextReadByte + 1 })

/-- `ByteSliceNibbler.UnreadByte`: an error at index zero, otherwise step
the index back by one. -/
def ByteSliceNibbler.UnreadByte (nib : ByteSliceNibbler) : (Except GoErr Unit) × ByteSliceNibbler :=
  if nib.indexInBufferOfNextReadByte = 0 then
    (Except.error atStartOfBackingBufferError, nib)
  else
    (Except.ok (), { nib with indexInBufferOfNextReadByte := nib.indexInBufferOfNextReadByte - 1 })

/-- `ByteSliceNibbler.PeekAtNextByte`: the byte at the index without
advancing. -/
def ByteSliceNibbler.PeekAtNextByte (nib : ByteSliceNibbler) : (Except GoErr Nat) × ByteSliceNibbler :=
  if nib.backingBuffer.length ≤ nib.indexInBufferOfNextReadByte then
    (Except.error GoErr.eof, nib)
  else
    (Except.ok (nib.backingBuffer.getD nib.indexInBufferOfNextReadByte 0), nib)

/-- The `ByteNibbler` view of a `ByteSliceNibbler`. -/
def byteSliceNibblerOps : NibblerOps ByteSliceNibbler where
  readUnit := ByteSliceNibbler.ReadByte
  unreadUnit := ByteSliceNibbler.UnreadByte

/-- One result of a `Read` on the external byte source backing a
`ByteReaderNibbler`: newly produced bytes (possibly none, which is the
contract violation), end-of-data, or a fault. -/
inductive ReadEvent where
  | bytes (bs : List Nat)
  | eof
  | fault (m : String)
deriving DecidableEq

/-- `ByteReaderNibbler`: the pending results of successive `Read` calls on
the backing reader, the append-only internal buffer, the index of the next
unread byte, and the optional named-set map.  An exhausted event list
stands for a source that keeps reporting end-of-data. -/
structure ByteReaderNibbler where
  backingReaderEvents : List ReadEvent
  internalBuffer : List Nat
  indexOfNextReadByteInBuffer : Nat
  namedCharacterSets : Option NamedCharacterSetsMap

/-- `ByteReaderNibbler.readFromStreamAndAppendToInternalBuffer`: one
`Read` of the backing reader; errors pass through, a positive byte count
is appended to the internal buffer, and a zero count with no error and no
end-of-data is itself turned into an error. -/
def ByteReaderNibbler.readFromStreamAndAppendToInternalBuffer (nib : ByteReaderNibbler) : (Option GoErr) × ByteReaderNibbler :=
  match nib.backingReaderEvents with
  | [] => (some GoErr.eof, nib)
  | ev :: rest =>
    match ev with
    | ReadEvent.eof => (some GoErr.eof, { nib with backingReaderEvents := rest })
    | ReadEvent.fault m => (some (GoErr.msg m), { nib with backingReaderEvents := rest })
    | ReadEvent.bytes bs =>
      if 0 < bs.length then
        (none, { nib with backingReaderEvents := rest, internalBuffer := nib.internalBuffer ++ bs })
      else
        (some emptyReadError, { nib with backingReaderEvents := rest })

/-- `ByteReaderNibbler.ReadByte`: refill once if the buffer is exhausted,
then return the byte at the index, advancing by one. -/
def ByteReaderNibbler.ReadByte (nib : ByteReaderNibbler) : (Except GoErr Nat) × ByteReaderNibbler :=
  let step :=
    if nib.internalBuffer.length ≤ nib.indexOfNextReadByteInBuffer then
      nib.readFromStreamAndAppendToInternalBuffer
    else (none, nib)
  match step with
  | (some e, nib1) => (Except.error e, nib1)
  | (none, nib1) =>
    (Except.ok (nib1.internalBuffer.getD nib1.indexOfNextReadByteInBuffer 0),
     { nib1 with indexOfNextReadByteInBuffer := nib1.indexOfNextReadByteInBuffer + 1 })

/-- `ByteReaderNibbler.UnreadByte`: an error when the index is below one,
otherwise step the index back by one. -/
def ByteReaderNibbler.UnreadByte (nib : ByteReaderNibbler) : (Except GoErr Unit) × ByteReaderNibbler :=
  if nib.indexOfNextReadByteInBuffer < 1 then
    (Except.error atStartOfStreamBufferError, nib)
  else
    (Except.ok (), { nib with indexOfNextReadByteInBuffer := nib.indexOfNextReadByteInBuffer - 1 })

/-- `ByteReaderNibbler.PeekAtNextByte`: refill once if the buffer is
exhausted, then return the byte at the index without advancing. -/
def ByteReaderNibbler.PeekAtNextByte (nib : ByteReaderNibbler) : (Except GoErr Nat) × ByteReaderNibbler :=
  let step :=
    if nib.internalBuffer.length ≤ nib.indexOfNextReadByteInBuffer then
      nib.readFromStreamAndAppendToInternalBuffer
    else (none, nib)
  match step with
  | (some e, nib1) => (Except.error e, nib1)
  | (none, nib1) =>
    (Except.ok (nib1.internalBuffer.getD nib1.indexOfNextReadByteInBuffer 0), nib1)

/-- The `ByteNibbler` view of a `ByteReaderNibbler`. -/
def byteReaderNibblerOps : NibblerOps ByteReaderNibbler where
  readUnit := ByteReaderNibbler.ReadByte
  unreadUnit := ByteReaderNibbler.UnreadByte

/-- `UTF8StringNibbler`: a fixed UTF-8 text buffer (its bytes) and the
byte index of the next read. -/
structure UTF8StringNibbler where
  backingString : List Nat
  indexInStringOfNextReadByte : Nat

/-- `UTF8StringNibbler.ReadCharacter`: `io.EOF` past the end; otherwise
decode at the index — Go's `DecodeRuneInString` reports both a malformed
sequence and a literal U+FFFD as `utf8.RuneError`, so the source's
`nextCharacter == utf8.RuneError` test sends both to the invalid-encoding
error without advancing; a decode of any other code point advances by its
width. -/
def UTF8StringNibbler.ReadCharacter (nib : UTF8StringNibbler) : (Except GoErr Nat) × UTF8StringNibbler :=
  if nib.backingString.length ≤ nib.indexInStringOfNextReadByte then
    (Except.error GoErr.eof, nib)
  else
    match utf8DecodeFirst (nib.backingString.drop nib.indexInStringOfNextReadByte) with
    | Utf8Dec.ok cp w =>
      if cp = 0xFFFD then (Except.error invalidUTF8Error, nib)
      else (Except.ok cp, { nib with indexInStringOfNextReadByte := nib.indexInStringOfNextReadByte + w })
    | _ => (Except.error invalidUTF8Error, nib)

/-- `UTF8StringNibbler.UnreadCharacter`: decode the last code point of the
consumed prefix; Go's `DecodeLastRuneInString` yields `(RuneError, 0)`
only on an empty prefix (the at-start error) and `RuneError` with nonzero
size for a malformed tail or a literal U+FFFD (the invalid-encoding
error); otherwise move back by the decoded width. -/
def UTF8StringNibbler.UnreadCharacter (nib : UTF8StringNibbler) : (Except GoErr Unit) × UTF8StringNibbler :=
  match utf8DecodeLast (nib.backingString.take nib.indexInStringOfNextReadByte) with
  | Utf8LastDec.empty => (Except.error atStartOfStringError, nib)
  | Utf8LastDec.invalid => (Except.error invalidUTF8Error, nib)
  | Utf8LastDec.ok cp w =>
    if cp = 0xFFFD then (Except.error invalidUTF8Error, nib)
    else (Except.ok (), { nib with indexInStringOfNextReadByte := nib.indexInStringOfNextReadByte - w })

/-- `UTF8StringNibbler.PeekAtNextCharacter`: the decode of
`ReadCharacter` without the advance. -/
def UTF8StringNibbler.PeekAtNextCharacter (nib : UTF8StringNibbler) : (Except GoErr Nat) × UTF8StringNibbler :=
  if nib.backingString.length ≤ nib.indexInStringOfNextReadByte then
    (Except.error GoErr.eof, nib)
  else
    match utf8DecodeFirst (nib.backingString.drop nib.indexInStringOfNextReadByte) with
    | Utf8Dec.ok cp _ =>
      if cp = 0xFFFD then (Except.error invalidUTF8Error, nib)
      else (Except.ok cp, nib)
    | _ => (Except.error invalidUTF8Error, nib)

/-- The `UTF8Nibbler` view of a `UTF8StringNibbler`. -/
def utf8StringNibblerOps : NibblerOps UTF8StringNibbler where
  readUnit := UTF8StringNibbler.ReadCharacter
  unreadUnit := UTF8StringNibbler.UnreadCharacter

/-- `UTF8RuneSliceNibbler`: a fixed buffer of already-decoded code points
and the index of the last read rune, which starts at `-1`. -/
structure UTF8RuneSliceNibbler where
  backingSlice : List Nat
  indexOfLastReadRune : Int

/-- `UTF8RuneSliceNibbler.ReadCharacter`: `io.EOF` when the last read rune
is the final one, otherwise advance and return the rune there. -/
def UTF8RuneSliceNibbler.ReadCharacter (nib : UTF8RuneSliceNibbler) : (Except GoErr Nat) × UTF8RuneSliceNibbler :=
  if nib.indexOfLastReadRune = (nib.backingSlice.length : Int) - 1 then
    (Except.error GoErr.eof, nib)
  else
    (Except.ok (nib.backingSlice.getD (nib.indexOfLastReadRune + 1).toNat 0),
     { nib with indexOfLastReadRune := nib.indexOfLastReadRune + 1 })

/-- `UTF8RuneSliceNibbler.UnreadCharacter`: an error below zero, otherwise
step the index back by one. -/
def UTF8RuneSliceNibbler.UnreadCharacter (nib : UTF8RuneSliceNibbler) : (Except GoErr Unit) × UTF8RuneSliceNibbler :=
  if nib.indexOfLastReadRune < 0 then
    (Except.error atStartOfRuneStreamError, nib)
  else
    (Except.ok (), { nib with indexOfLastReadRune := nib.indexOfLastReadRune - 1 })

/-- `UTF8RuneSliceNibbler.PeekAtNextCharacter`: the next rune without
advancing. -/
def UTF8RuneSliceNibbler.PeekAtNextCharacter (nib : UTF8RuneSliceNibbler) : (Except GoErr Nat) × UTF8RuneSliceNibbler :=
  if nib.indexOfLastReadRune = (nib.backingSlice.length : Int) - 1 then
    (Except.error GoErr.eof, nib)
  else
    (Except.ok (nib.backingSlice.getD (nib.indexOfLastReadRune + 1).toNat 0), nib)

/-- The `UTF8Nibbler` view of a `UTF8RuneSliceNibbler`. -/
def utf8RuneSliceNibblerOps : NibblerOps UTF8RuneSliceNibbler where
  readUnit := UTF8RuneSliceNibbler.ReadCharacter
  unreadUnit := UTF8RuneSliceNibbler.UnreadCharacter

/-- Modelled from the spec: the repository's stream-backed code-point
cursor `UTF8ReaderNibbler` (its tests and a stub declaration are in the
sources, the implementation is not), following spec §4.2: state is the
pending refill chunks of the external byte source, the append-only
internal byte buffer, and the position of the next undecoded byte. -/
structure UTF8ReaderNibbler where
  sourceChunks : List (List Nat)
  internalBuffer : List Nat
  positionOfNextRead : Nat

/-- Modelled from the spec: the decode-with-refills loop of
`UTF8ReaderNibbler.ReadCharacter` — check whether a complete code point is
available at the buffered position; when only a partial sequence is
buffered, perform additional refills (bounded by the maximum encoding
width) before concluding `InvalidEncoding`; at end-of-data report
`EndOfStream` when nothing remains buffered. -/
def UTF8ReaderNibbler.readCharacterAux : Nat → UTF8ReaderNibbler → (Except GoErr Nat) × UTF8ReaderNibbler
  | fuel, nib =>
    match utf8DecodeFirst (nib.internalBuffer.drop nib.positionOfNextRead) with
    | Utf8Dec.ok cp w =>
      (Except.ok cp, { nib with positionOfNextRead := nib.positionOfNextRead + w })
    | Utf8Dec.invalid => (Except.error invalidUTF8Error, nib)
    | Utf8Dec.incomplete =>
      match nib.sourceChunks with
      | [] =>
        if nib.internalBuffer.length ≤ nib.positionOfNextRead then (Except.error GoErr.eof, nib)
        else (Except.error invalidUTF8Error, nib)
      | chunk :: rest =>
        match fuel with
        | 0 => (Except.error invalidUTF8Error, nib)
        | fuel + 1 =>
          UTF8ReaderNibbler.readCharacterAux fuel
            { nib with sourceChunks := rest, internalBuffer := nib.internalBuffer ++ chunk }

/-- Modelled from the spec: `UTF8ReaderNibbler.ReadCharacter`, allowing
the initial refill plus up to four additional ones — enough to cover the
maximum UTF-8 encoding width. -/
def UTF8ReaderNibbler.ReadCharacter (nib : UTF8ReaderNibbler) : (Except GoErr Nat) × UTF8ReaderNibbler :=
  UTF8ReaderNibbler.readCharacterAux 5 nib

/-- A chain of successful reads: `ReadsUnits ops s us t` states that
starting from cursor state `s`, successive `readUnit` calls return exactly
the units `us` and leave the cursor in state `t`. -/
def ReadsUnits (ops : NibblerOps σ) : σ → List Nat → σ → Prop
  | s, [], t => s = t
  | s, u :: us, t => ∃ s1, ops.readUnit s = (Except.ok u, s1) ∧ ReadsUnits ops s1 us t

/-- Left-to-right overwrite of receiver slots `i, i+1, …` with the given
units, as performed by the into-variant scan loops. -/
def listOverwrite : List Nat → Nat → List Nat → List Nat
  | receiver, _, [] => receiver
  | receiver, i, c :: cs => listOverwrite (receiver.set i c) (i + 1) cs

/-- The cursor state left behind by a fuelled run-consuming call: the
final state when the loop completed, the starting state otherwise. -/
def runResultState (s : σ) : Option (List Nat × Option GoErr × σ) → σ
  | some (_, _, s1) => s1
  | none => s

/-- The cursor state left behind by a fuelled into-variant call. -/
def intoResultState (s : σ) : Option (Int × Option GoErr × List Nat × σ) → σ
  | some (_, _, _, s1) => s1
  | none => s

/-- One cursor operation of a `ByteSliceNibbler`, as named by the
`ByteNibbler` interface; the set operations carry the loop fuel. -/
inductive ByteSliceOp where
  | readByte
  | unreadByte
  | peekAtNextByte
  | readMatchingSet (setName : String) (fuel : Nat)
  | readNotMatchingSet (setName : String) (fuel : Nat)

/-- The cursor state left behind by one `ByteSliceNibbler` operation. -/
def ByteSliceNibbler.applyOp (nib : ByteSliceNibbler) : ByteSliceOp → ByteSliceNibbler
  | ByteSliceOp.readByte => nib.ReadByte.2
  | ByteSliceOp.unreadByte => nib.UnreadByte.2
  | ByteSliceOp.peekAtNextByte => nib.PeekAtNextByte.2
  | ByteSliceOp.readMatchingSet setName fuel =>
    runResultState nib (readNextBytesMatchingSet byteSliceNibblerOps nib.namedCharacterSets setName fuel nib)
  | ByteSliceOp.readNotMatchingSet setName fuel =>
    runResultState nib (readNextBytesNotMatchingSet byteSliceNibblerOps nib.namedCharacterSets setName fuel nib)

/-- The cursor state after a sequence of `ByteSliceNibbler` operations. -/
def ByteSliceNibbler.runOps (nib : ByteSliceNibbler) (ops : List ByteSliceOp) : ByteSliceNibbler :=
  ops.foldl ByteSliceNibbler.applyOp nib

/-- Position invariant of the fixed byte-buffer cursor: the index never
passes the end of the backing buffer (it is a `Nat`, so it is also never
negative). -/
def ByteSliceNibbler.PositionInvariant (nib : ByteSliceNibbler) : Prop :=
  nib.indexInBufferOfNextReadByte ≤ nib.backingBuffer.length

/-- One cursor operation of a `ByteReaderNibbler`. -/
inductive ByteReaderOp where
  | readByte
  | unreadByte
  | peekAtNextByte
  | readMatchingSet (setName : String) (fuel : Nat)
  | readNotMatchingSet (setName : String) (fuel : Nat)

/-- The cursor state left behind by one `ByteReaderNibbler` operation. -/
def ByteReaderNibbler.applyOp (nib : ByteReaderNibbler) : ByteReaderOp → ByteReaderNibbler
  | ByteReaderOp.readByte => nib.ReadByte.2
  | ByteReaderOp.unreadByte => nib.UnreadByte.2
  | ByteReaderOp.peekAtNextByte => nib.PeekAtNextByte.2
  | ByteReaderOp.readMatchingSet setName fuel =>
    runResultState nib (readNextBytesMatchingSet byteReaderNibblerOps nib.namedCharacterSets setName fuel nib)
  | ByteReaderOp.readNotMatchingSet setName fuel =>
    runResultState nib (readNextBytesNotMatchingSet byteReaderNibblerOps nib.namedCharacterSets setName fuel nib)

/-- The cursor state after a sequence of `ByteReaderNibbler` operations. -/
def ByteReaderNibbler.runOps (nib : ByteReaderNibbler) (ops : List ByteReaderOp) : ByteReaderNibbler :=
  ops.foldl ByteReaderNibbler.applyOp nib

/-- Position invariant of the stream-backed byte cursor: the index never
passes the end of the internal buffer. -/
def ByteReaderNibbler.PositionInvariant (nib : ByteReaderNibbler) : Prop :=
  nib.indexOfNextReadByteInBuffer ≤ nib.internalBuffer.length

/-- Monotone growth of the stream-backed cursor's internal buffer: the
later buffer extends the earlier one by some appended bytes. -/
def ByteReaderNibbler.BufferGrows (a b : ByteReaderNibbler) : Prop :=
  ∃ ext, b.internalBuffer = a.internalBuffer ++ ext

/-- One cursor operation of a `UTF8StringNibbler`, including the
run-consuming operations of the `UTF8NibblerMatcher`. -/
inductive UTF8StringOp where
  | readCharacter
  | unreadCharacter
  | peekAtNextCharacter
  | readMatching (matcher : Nat → Bool) (fuel : Nat)
  | readNotMatching (matcher : Nat → Bool) (fuel : Nat)
  | readMatchingInto (matcher : Nat → Bool) (receiver : List Nat) (fuel : Nat)
  | readNotMatchingInto (matcher : Nat → Bool) (receiver : List Nat) (fuel : Nat)

/-- The cursor state left behind by one `UTF8StringNibbler` operation. -/
def UTF8StringNibbler.applyOp (nib : UTF8StringNibbler) : UTF8StringOp → UTF8StringNibbler
  | UTF8StringOp.readCharacter => nib.ReadCharacter.2
  | UTF8StringOp.unreadCharacter => nib.UnreadCharacter.2
  | UTF8StringOp.peekAtNextCharacter => nib.PeekAtNextCharacter.2
  | UTF8StringOp.readMatching matcher fuel =>
    runResultState nib (readConsecutiveCharactersMatching utf8StringNibblerOps matcher fuel nib [])
  | UTF8StringOp.readNotMatching matcher fuel =>
    runResultState nib (readConsecutiveCharactersNotMatching utf8StringNibblerOps matcher fuel nib [])
  | UTF8StringOp.readMatchingInto matcher receiver fuel =>
    intoResultState nib (readConsecutiveCharactersMatchingInto utf8StringNibblerOps matcher fuel nib receiver 0)
  | UTF8StringOp.readNotMatchingInto matcher receiver fuel =>
    intoResultState nib (readConsecutiveCharactersNotMatchingInto utf8StringNibblerOps matcher fuel nib receiver 0)

/-- The cursor state after a sequence of `UTF8StringNibbler` operations. -/
def UTF8StringNibbler.runOps (nib : UTF8StringNibbler) (ops : List UTF8StringOp) : UTF8StringNibbler :=
  ops.foldl UTF8StringNibbler.applyOp nib

/-- Position invariant of the fixed text cursor: the byte index never
passes the end of the backing string (a `Nat`, so never negative). -/
def UTF8StringNibbler.PositionInvariant (nib : UTF8StringNibbler) : Prop :=
  nib.indexInStringOfNextReadByte ≤ nib.backingString.length

/-- One cursor operation of a `UTF8RuneSliceNibbler`, including the
run-consuming operations of the `UTF8NibblerMatcher`. -/
inductive UTF8RuneSliceOp where
  | readCharacter
  | unreadCharacter
  | peekAtNextCharacter
  | readMatching (matcher : Nat → Bool) (fuel : Nat)
  | readNotMatching (matcher : Nat → Bool) (fuel : Nat)
  | readMatchingInto (matcher : Nat → Bool) (receiver : List Nat) (fuel : Nat)
  | readNotMatchingInto (matcher : Nat → Bool) (receiver : List Nat) (fuel : Nat)

/-- The cursor state left behind by one `UTF8RuneSliceNibbler` operation. -/
def UTF8RuneSliceNibbler.applyOp (nib : UTF8RuneSliceNibbler) : UTF8RuneSliceOp → UTF8RuneSliceNibbler
  | UTF8RuneSliceOp.readCharacter => nib.ReadCharacter.2
  | UTF8RuneSliceOp.unreadCharacter => nib.UnreadCharacter.2
  | UTF8RuneSliceOp.peekAtNextCharacter => nib.PeekAtNextCharacter.2
  | UTF8RuneSliceOp.readMatching matcher fuel =>
    runResultState nib (readConsecutiveCharactersMatching utf8RuneSliceNibblerOps matcher fuel nib [])
  | UTF8RuneSliceOp.readNotMatching matcher fuel =>
    runResultState nib (readConsecutiveCharactersNotMatching utf8RuneSliceNibblerOps matcher fuel nib [])
  | UTF8RuneSliceOp.readMatchingInto matcher receiver fuel =>
    intoResultState nib (readConsecutiveCharactersMatchingInto utf8RuneSliceNibblerOps matcher fuel nib receiver 0)
  | UTF8RuneSliceOp.readNotMatchingInto matcher receiver fuel =>
    intoResultState nib (readConsecutiveCharactersNotMatchingInto utf8RuneSliceNibblerOps matcher fuel nib receiver 0)

/-- The cursor state after a sequence of `UTF8RuneSliceNibbler`
operations. -/
def UTF8RuneSliceNibbler.runOps (nib : UTF8RuneSliceNibbler) (ops : List UTF8RuneSliceOp) : UTF8RuneSliceNibbler :=
  ops.foldl UTF8RuneSliceNibbler.applyOp nib

/-- Position invariant of the fixed rune-buffer cursor: the position of
the next read, `indexOfLastReadRune + 1`, stays between `0` and the
length of the backing slice — here the lower bound is substantial because
the index is a Go `int` starting at `-1`. -/
def UTF8RuneSliceNibbler.PositionInvariant (nib : UTF8RuneSliceNibbler) : Prop :=
  0 ≤ nib.indexOfLastReadRune + 1 ∧ nib.indexOfLastReadRune + 1 ≤ (nib.backingSlice.length : Int)

/-- `ByteSliceNibbler.ReadNextBytesMatchingSet`: the delegate call with
the cursor's own attached sets map. -/
def ByteSliceNibbler.ReadNextBytesMatchingSet (nib : ByteSliceNibbler) (setName : String) (fuel : Nat) : Option (List Nat × Option GoErr × ByteSliceNibbler) :=
  readNextBytesMatchingSet byteSliceNibblerOps nib.namedCharacterSets setName fuel nib

/-- `ByteSliceNibbler.ReadNextBytesNotMatchingSet`: the delegate call with
the cursor's own attached sets map. -/
def ByteSliceNibbler.ReadNextBytesNotMatchingSet (nib : ByteSliceNibbler) (setName : String) (fuel : Nat) : Option (List Nat × Option GoErr × ByteSliceNibbler) :=
  readNextBytesNotMatchingSet byteSliceNibblerOps nib.namedCharacterSets setName fuel nib

/-- `ByteReaderNibbler.ReadNextBytesMatchingSet`: the delegate call with
the cursor's own attached sets map. -/
def ByteReaderNibbler.ReadNextBytesMatchingSet (nib : ByteReaderNibbler) (setName : String) (fuel : Nat) : Option (List Nat × Option GoErr × ByteReaderNibbler) :=
  readNextBytesMatchingSet byteReaderNibblerOps nib.namedCharacterSets setName fuel nib

/-- `ByteReaderNibbler.ReadNextBytesNotMatchingSet`: the delegate call
with the cursor's own attached sets map. -/
def ByteReaderNibbler.ReadNextBytesNotMatchingSet (nib : ByteReaderNibbler) (setName : String) (fuel : Nat) : Option (List Nat × Option GoErr × ByteReaderNibbler) :=
  readNextBytesNotMatchingSet byteReaderNibblerOps nib.namedCharacterSets setName fuel nib

instance (nib : ByteSliceNibbler) : Decidable nib.PositionInvariant := by
  unfold ByteSliceNibbler.PositionInvariant; infer_instance

instance (nib : ByteReaderNibbler) : Decidable nib.PositionInvariant := by
  unfold ByteReaderNibbler.PositionInvariant; infer_instance

instance (nib : UTF8StringNibbler) : Decidable nib.PositionInvariant := by
  unfold UTF8StringNibbler.PositionInvariant; infer_instance

instance (nib : UTF8RuneSliceNibbler) : Decidable nib.PositionInvariant := by
  unfold UTF8RuneSliceNibbler.PositionInvariant; infer_instance

set_option maxRecDepth 40000

example : utf8DecodeFirst [0x41, 0x42] = Utf8Dec.ok 0x41 1 := by decide
example : utf8DecodeFirst [0xC3, 0xA9] = Utf8Dec.ok 0xE9 2 := by decide
example : utf8DecodeFirst [0xE2, 0x88, 0x80] = Utf8Dec.ok 0x2200 3 := by decide
example : utf8DecodeFirst [0xEF, 0xBF, 0xBD] = Utf8Dec.ok 0xFFFD 3 := by decide
example : utf8DecodeFirst [0xF0, 0x9F, 0x98, 0x80] = Utf8Dec.ok 0x1F600 4 := by decide
example : utf8DecodeFirst [0xE2, 0x88] = Utf8Dec.incomplete := by decide
example : utf8DecodeFirst [0x80] = Utf8Dec.invalid := by decide
example : utf8DecodeFirst [0xED, 0xA0, 0x80] = Utf8Dec.invalid := by decide
example : utf8DecodeFirst [0xC0, 0x80] = Utf8Dec.invalid := by decide
example : utf8Encode 0x2200 = [0xE2, 0x88, 0x80] := by decide
example : utf8DecodeLast [0x41, 0xE2, 0x88, 0x80] = Utf8LastDec.ok 0x2200 3 := by decide
example : utf8DecodeLast [0xE2, 0x88] = Utf8LastDec.invalid := by decide
example : utf8DecodeLast [] = Utf8LastDec.empty := by decide
example : utf8DecodeLast [0x61] = Utf8LastDec.ok 0x61 1 := by decide
example : (UTF8StringNibbler.ReadCharacter ⟨[0x61, 0xE2, 0x88, 0x80], 1⟩).1 = Except.ok 0x2200 := by rfl
example : (UTF8StringNibbler.ReadCharacter ⟨[0xEF, 0xBF, 0xBD], 0⟩).1 = Except.error invalidUTF8Error := by rfl
example : (UTF8StringNibbler.UnreadCharacter ⟨[0x61, 0xE2, 0x88, 0x80], 4⟩).2.indexInStringOfNextReadByte = 1 := by rfl
example : UTF8ReaderNibbler.ReadCharacter ⟨[[0xE2], [0x88, 0x80]], [], 0⟩ = (Except.ok 0x2200, ⟨[], [0xE2, 0x88, 0x80], 3⟩) := by rfl
example : (ByteReaderNibbler.ReadByte ⟨[ReadEvent.bytes []], [], 0, none⟩).1 = Except.error emptyReadError := by rfl

theorem utf8Encode_length_pos (cp : Nat) : 0 < (utf8Encode cp).length := by
  unfold utf8Encode
  split_ifs <;> simp

theorem utf8DecodeFirst_encode (cp : Nat) (h : ValidScalar cp) (rest : List Nat) :
    utf8DecodeFirst (utf8Encode cp ++ rest) = Utf8Dec.ok cp (utf8Encode cp).length := by
  obtain ⟨hlt, hsur⟩ := h
  by_cases h1 : cp < 0x80
  · simp only [utf8Encode, if_pos h1]
    simp only [List.cons_append, List.nil_append, List.length_cons, List.length_nil]
    simp only [utf8DecodeFirst]
    rw [if_pos h1]
  · by_cases h2 : cp < 0x800
    · simp only [utf8Encode, if_neg h1, if_pos h2]
      simp only [List.cons_append, List.nil_append, List.length_cons, List.length_nil]
      simp only [utf8DecodeFirst]
      rw [if_neg (by omega), if_neg (by omega), if_pos (by omega), if_pos (by omega)]
      congr 1
      omega
    · by_cases h3 : cp < 0x10000
      · simp only [utf8Encode, if_neg h1, if_neg h2, if_pos h3]
        simp only [List.cons_append, List.nil_append, List.length_cons, List.length_nil]
        simp only [utf8DecodeFirst]
        rw [if_neg (by omega), if_neg (by omega), if_neg (by omega), if_pos (by omega)]
        rw [if_pos ?hb1, if_pos (by omega)]
        case hb1 =>
          constructor
          · by_cases he0 : (0xE0 + cp / 4096 : Nat) = 0xE0
            · rw [if_pos he0]; omega
            · rw [if_neg he0]; omega
          · by_cases hed : (0xE0 + cp / 4096 : Nat) = 0xED
            · rw [if_pos hed]; omega
            · rw [if_neg hed]; omega
        congr 1
        omega
      · simp only [utf8Encode, if_neg h1, if_neg h2, if_neg h3]
        simp only [List.cons_append, List.nil_append, List.length_cons, List.length_nil]
        simp only [utf8DecodeFirst]
        rw [if_neg (by omega), if_neg (by omega), if_neg (by omega), if_neg (by omega), if_pos (by omega)]
        rw [if_pos ?hb1, if_pos (by omega), if_pos (by omega)]
        case hb1 =>
          constructor
          · by_cases hf0 : (0xF0 + cp / 262144 : Nat) = 0xF0
            · rw [if_pos hf0]; omega
            · rw [if_neg hf0]; omega
          · by_cases hf4 : (0xF0 + cp / 262144 : Nat) = 0xF4
            · rw [if_pos hf4]; omega
            · rw [if_neg hf4]; omega
        congr 1
        omega

theorem utf8DecodeFirst_encode_take (cp k : Nat) (h : ValidScalar cp) (hk0 : 0 < k) (hkw : k < (utf8Encode cp).length) :
    utf8DecodeFirst ((utf8Encode cp).take k) = Utf8Dec.incomplete := by
  obtain ⟨hlt, hsur⟩ := h
  by_cases h1 : cp < 0x80
  · exfalso
    simp only [utf8Encode, if_pos h1, List.length_cons, List.length_nil] at hkw
    omega
  · by_cases h2 : cp < 0x800
    · simp only [utf8Encode, if_neg h1, if_pos h2, List.length_cons, List.length_nil] at hkw ⊢
      have hk : k = 1 := by omega
      subst hk
      simp only [List.take_succ_cons, List.take_zero]
      simp only [utf8DecodeFirst]
      rw [if_neg (by omega), if_neg (by omega), if_pos (by omega)]
    · by_cases h3 : cp < 0x10000
      · simp only [utf8Encode, if_neg h1, if_neg h2, if_pos h3, List.length_cons, List.length_nil] at hkw ⊢
        have hb1 : (if (0xE0 + cp / 4096 : Nat) = 0xE0 then (0xA0 : Nat) else 0x80) ≤ 0x80 + cp / 64 % 64 ∧
            (0x80 + cp / 64 % 64 : Nat) ≤ (if (0xE0 + cp / 4096 : Nat) = 0xED then (0x9F : Nat) else 0xBF) := by
          constructor
          · by_cases he0 : (0xE0 + cp / 4096 : Nat) = 0xE0
            · rw [if_pos he0]; omega
            · rw [if_neg he0]; omega
          · by_cases hed : (0xE0 + cp / 4096 : Nat) = 0xED
            · rw [if_pos hed]; omega
            · rw [if_neg hed]; omega
        have hk : k = 1 ∨ k = 2 := by omega
        rcases hk with hk | hk
        · subst hk
          simp only [List.take_succ_cons, List.take_zero]
          simp only [utf8DecodeFirst]
          rw [if_neg (by omega), if_neg (by omega), if_neg (by omega), if_pos (by omega)]
        · subst hk
          simp only [List.take_succ_cons, List.take_zero]
          simp only [utf8DecodeFirst]
          rw [if_neg (by omega), if_neg (by omega), if_neg (by omega), if_pos (by omega), if_pos hb1]
      · simp only [utf8Encode, if_neg h1, if_neg h2, if_neg h3, List.length_cons, List.length_nil] at hkw ⊢
        have hb1 : (if (0xF0 + cp / 262144 : Nat) = 0xF0 then (0x90 : Nat) else 0x80) ≤ 0x80 + cp / 4096 % 64 ∧
            (0x80 + cp / 4096 % 64 : Nat) ≤ (if (0xF0 + cp / 262144 : Nat) = 0xF4 then (0x8F : Nat) else 0xBF) := by
          constructor
          · by_cases hf0 : (0xF0 + cp / 262144 : Nat) = 0xF0
            · rw [if_pos hf0]; omega
            · rw [if_neg hf0]; omega
          · by_cases hf4 : (0xF0 + cp / 262144 : Nat) = 0xF4
            · rw [if_pos hf4]; omega
            · rw [if_neg hf4]; omega
        have hk : k = 1 ∨ k = 2 ∨ k = 3 := by omega
        rcases hk with hk | hk | hk
        · subst hk
          simp only [List.take_succ_cons, List.take_zero]
          simp only [utf8DecodeFirst]
          rw [if_neg (by omega), if_neg (by omega), if_neg (by omega), if_neg (by omega), if_pos (by omega)]
        · subst hk
          simp only [List.take_succ_cons, List.take_zero]
          simp only [utf8DecodeFirst]
          rw [if_neg (by omega), if_neg (by omega), if_neg (by omega), if_neg (by omega), if_pos (by omega),
            if_pos hb1]
        · subst hk
          simp only [List.take_succ_cons, List.take_zero]
          simp only [utf8DecodeFirst]
          rw [if_neg (by omega), if_neg (by omega), if_neg (by omega), if_neg (by omega), if_pos (by omega),
            if_pos hb1, if_pos (by omega)]

theorem utf8DecodeFirst_ok_inv (l : List Nat) (cp w : Nat) (h : utf8DecodeFirst l = Utf8Dec.ok cp w) :
    ValidScalar cp ∧ 1 ≤ w ∧ w ≤ l.length ∧ l.take w = utf8Encode cp ∧ (utf8Encode cp).length = w := by
  match l with
  | [] => simp [utf8DecodeFirst] at h
  | [b0] =>
    simp only [utf8DecodeFirst] at h
    by_cases a1 : b0 < 0x80
    · rw [if_pos a1] at h
      obtain ⟨hcp, hw⟩ := Utf8Dec.ok.inj h
      subst hcp; subst hw
      refine ⟨⟨by omega, by omega⟩, by omega, by simp, ?_, ?_⟩
      · simp only [List.take_succ_cons, List.take_zero, utf8Encode, if_pos a1]
      · simp [utf8Encode, if_pos a1]
    · rw [if_neg a1] at h
      split_ifs at h
  | [b0, b1] =>
    simp only [utf8DecodeFirst] at h
    by_cases a1 : b0 < 0x80
    · rw [if_pos a1] at h
      obtain ⟨hcp, hw⟩ := Utf8Dec.ok.inj h
      subst hcp; subst hw
      refine ⟨⟨by omega, by omega⟩, by omega, by simp, ?_, ?_⟩
      · simp only [List.take_succ_cons, List.take_zero, utf8Encode, if_pos a1]
      · simp [utf8Encode, if_pos a1]
    · rw [if_neg a1] at h
      by_cases a2 : b0 < 0xC2
      · rw [if_pos a2] at h; exact absurd h (by simp)
      · rw [if_neg a2] at h
        by_cases a3 : b0 ≤ 0xDF
        · rw [if_pos a3] at h
          by_cases a4 : 0x80 ≤ b1 ∧ b1 ≤ 0xBF
          · rw [if_pos a4] at h
            obtain ⟨hcp, hw⟩ := Utf8Dec.ok.inj h
            subst hcp; subst hw
            refine ⟨⟨by omega, by omega⟩, by omega, by simp, ?_, ?_⟩
            · simp only [List.take_succ_cons, List.take_zero, utf8Encode]
              rw [if_neg (by omega), if_pos (by omega)]
              simp only [List.cons.injEq, and_true]
              exact ⟨by omega, by omega⟩
            · simp only [utf8Encode]
              rw [if_neg (by omega), if_pos (by omega)]
              simp
          · rw [if_neg a4] at h; exact absurd h (by simp)
        · rw [if_neg a3] at h
          split_ifs at h
  | [b0, b1, b2] =>
    simp only [utf8DecodeFirst] at h
    by_cases a1 : b0 < 0x80
    · rw [if_pos a1] at h
      obtain ⟨hcp, hw⟩ := Utf8Dec.ok.inj h
      subst hcp; subst hw
      refine ⟨⟨by omega, by omega⟩, by omega, by simp, ?_, ?_⟩
      · simp only [List.take_succ_cons, List.take_zero, utf8Encode, if_pos a1]
      · simp [utf8Encode, if_pos a1]
    · rw [if_neg a1] at h
      by_cases a2 : b0 < 0xC2
      · rw [if_pos a2] at h; exact absurd h (by simp)
      · rw [if_neg a2] at h
        by_cases a3 : b0 ≤ 0xDF
        · rw [if_pos a3] at h
          by_cases a4 : 0x80 ≤ b1 ∧ b1 ≤ 0xBF
          · rw [if_pos a4] at h
            obtain ⟨hcp, hw⟩ := Utf8Dec.ok.inj h
            subst hcp; subst hw
            refine ⟨⟨by omega, by omega⟩, by omega, by simp, ?_, ?_⟩
            · simp only [List.take_succ_cons, List.take_zero, utf8Encode]
              rw [if_neg (by omega), if_pos (by omega)]
              simp only [List.cons.injEq, and_true]
              exact ⟨by omega, by omega⟩
            · simp only [utf8Encode]
              rw [if_neg (by omega), if_pos (by omega)]
              simp
          · rw [if_neg a4] at h; exact absurd h (by simp)
        · rw [if_neg a3] at h
          by_cases a5 : b0 ≤ 0xEF
          · rw [if_pos a5] at h
            by_cases a6 : (if b0 = 0xE0 then (0xA0:Nat) else 0x80) ≤ b1 ∧ b1 ≤ (if b0 = 0xED then (0x9F:Nat) else 0xBF)
            · rw [if_pos a6] at h
              by_cases a7 : 0x80 ≤ b2 ∧ b2 ≤ 0xBF
              · rw [if_pos a7] at h
                obtain ⟨hcp, hw⟩ := Utf8Dec.ok.inj h
                subst hcp; subst hw
                have c1 : 0xA0 ≤ b1 ∨ ¬ b0 = 0xE0 := by
                  by_cases he0 : b0 = 0xE0
                  · rw [if_pos he0] at a6; exact Or.inl a6.1
                  · exact Or.inr he0
                have c2 : b1 ≤ 0x9F ∨ ¬ b0 = 0xED := by
                  by_cases hed : b0 = 0xED
                  · rw [if_pos hed] at a6; exact Or.inl a6.2
                  · exact Or.inr hed
                have c3 : 0x80 ≤ b1 ∧ b1 ≤ 0xBF := by
                  constructor
                  · by_cases he0 : b0 = 0xE0
                    · rw [if_pos he0] at a6; omega
                    · rw [if_neg he0] at a6; omega
                  · by_cases hed : b0 = 0xED
                    · rw [if_pos hed] at a6; omega
                    · rw [if_neg hed] at a6; omega
                refine ⟨⟨by omega, by omega⟩, by omega, by simp, ?_, ?_⟩
                · simp only [List.take_succ_cons, List.take_zero, utf8Encode]
                  rw [if_neg (by omega), if_neg (by omega), if_pos (by omega)]
                  simp only [List.cons.injEq, and_true]
                  exact ⟨by omega, by omega, by omega⟩
                · simp only [utf8Encode]
                  rw [if_neg (by omega), if_neg (by omega), if_pos (by omega)]
                  simp
              · rw [if_neg a7] at h; exact absurd h (by simp)
            · rw [if_neg a6] at h; exact absurd h (by simp)
          · rw [if_neg a5] at h
            split_ifs at h
  | b0 :: b1 :: b2 :: b3 :: rest4 =>
    simp only [utf8DecodeFirst] at h
    by_cases a1 : b0 < 0x80
    · rw [if_pos a1] at h
      obtain ⟨hcp, hw⟩ := Utf8Dec.ok.inj h
      subst hcp; subst hw
      refine ⟨⟨by omega, by omega⟩, by omega, by simp, ?_, ?_⟩
      · simp only [List.take_succ_cons, List.take_zero, utf8Encode, if_pos a1]
      · simp [utf8Encode, if_pos a1]
    · rw [if_neg a1] at h
      by_cases a2 : b0 < 0xC2
      · rw [if_pos a2] at h; exact absurd h (by simp)
      · rw [if_neg a2] at h
        by_cases a3 : b0 ≤ 0xDF
        · rw [if_pos a3] at h
          by_cases a4 : 0x80 ≤ b1 ∧ b1 ≤ 0xBF
          · rw [if_pos a4] at h
            obtain ⟨hcp, hw⟩ := Utf8Dec.ok.inj h
            subst hcp; subst hw
            refine ⟨⟨by omega, by omega⟩, by omega, by simp, ?_, ?_⟩
            · simp only [List.take_succ_cons, List.take_zero, utf8Encode]
              rw [if_neg (by omega), if_pos (by omega)]
              simp only [List.cons.injEq, and_true]
              exact ⟨by omega, by omega⟩
            · simp only [utf8Encode]
              rw [if_neg (by omega), if_pos (by omega)]
              simp
          · rw [if_neg a4] at h; exact absurd h (by simp)
        · rw [if_neg a3] at h
          by_cases a5 : b0 ≤ 0xEF
          · rw [if_pos a5] at h
            by_cases a6 : (if b0 = 0xE0 then (0xA0:Nat) else 0x80) ≤ b1 ∧ b1 ≤ (if b0 = 0xED then (0x9F:Nat) else 0xBF)
            · rw [if_pos a6] at h
              by_cases a7 : 0x80 ≤ b2 ∧ b2 ≤ 0xBF
              · rw [if_pos a7] at h
                obtain ⟨hcp, hw⟩ := Utf8Dec.ok.inj h
                subst hcp; subst hw
                have c1 : 0xA0 ≤ b1 ∨ ¬ b0 = 0xE0 := by
                  by_cases he0 : b0 = 0xE0
                  · rw [if_pos he0] at a6; exact Or.inl a6.1
                  · exact Or.inr he0
                have c2 : b1 ≤ 0x9F ∨ ¬ b0 = 0xED := by
                  by_cases hed : b0 = 0xED
                  · rw [if_pos hed] at a6; exact Or.inl a6.2
                  · exact Or.inr hed
                have c3 : 0x80 ≤ b1 ∧ b1 ≤ 0xBF := by
                  constructor
                  · by_cases he0 : b0 = 0xE0
                    · rw [if_pos he0] at a6; omega
                    · rw [if_neg he0] at a6; omega
                  · by_cases hed : b0 = 0xED
                    · rw [if_pos hed] at a6; omega
                    · rw [if_neg hed] at a6; omega
                refine ⟨⟨by omega, by omega⟩, by omega, by simp, ?_, ?_⟩
                · simp only [List.take_succ_cons, List.take_zero, utf8Encode]
                  rw [if_neg (by omega), if_neg (by omega), if_pos (by omega)]
                  simp only [List.cons.injEq, and_true]
                  exact ⟨by omega, by omega, by omega⟩
                · simp only [utf8Encode]
                  rw [if_neg (by omega), if_neg (by omega), if_pos (by omega)]
                  simp
              · rw [if_neg a7] at h; exact absurd h (by simp)
            · rw [if_neg a6] at h; exact absurd h (by simp)
          · rw [if_neg a5] at h
            by_cases a8 : b0 ≤ 0xF4
            · rw [if_pos a8] at h
              by_cases a9 : (if b0 = 0xF0 then (0x90:Nat) else 0x80) ≤ b1 ∧ b1 ≤ (if b0 = 0xF4 then (0x8F:Nat) else 0xBF)
              · rw [if_pos a9] at h
                by_cases a10 : 0x80 ≤ b2 ∧ b2 ≤ 0xBF
                · rw [if_pos a10] at h
                  by_cases a11 : 0x80 ≤ b3 ∧ b3 ≤ 0xBF
                  · rw [if_pos a11] at h
                    obtain ⟨hcp, hw⟩ := Utf8Dec.ok.inj h
                    subst hcp; subst hw
                    have c1 : 0x90 ≤ b1 ∨ ¬ b0 = 0xF0 := by
                      by_cases hf0 : b0 = 0xF0
                      · rw [if_pos hf0] at a9; exact Or.inl a9.1
                      · exact Or.inr hf0
                    have c2 : b1 ≤ 0x8F ∨ ¬ b0 = 0xF4 := by
                      by_cases hf4 : b0 = 0xF4
                      · rw [if_pos hf4] at a9; exact Or.inl a9.2
                      · exact Or.inr hf4
                    have c3 : 0x80 ≤ b1 ∧ b1 ≤ 0xBF := by
                      constructor
                      · by_cases hf0 : b0 = 0xF0
                        · rw [if_pos hf0] at a9; omega
                        · rw [if_neg hf0] at a9; omega
                      · by_cases hf4 : b0 = 0xF4
                        · rw [if_pos hf4] at a9; omega
                        · rw [if_neg hf4] at a9; omega
                    refine ⟨⟨by omega, by omega⟩, by omega, by simp, ?_, ?_⟩
                    · simp only [List.take_succ_cons, List.take_zero, utf8Encode]
                      rw [if_neg (by omega), if_neg (by omega), if_neg (by omega)]
                      simp only [List.cons.injEq, and_true]
                      exact ⟨by omega, by omega, by omega, by omega⟩
                    · simp only [utf8Encode]
                      rw [if_neg (by omega), if_neg (by omega), if_neg (by omega)]
                      simp
                  · rw [if_neg a11] at h; exact absurd h (by simp)
                · rw [if_neg a10] at h; exact absurd h (by simp)
              · rw [if_neg a9] at h; exact absurd h (by simp)
            · rw [if_neg a8] at h; exact absurd h (by simp)

theorem runeStartByte_of_lead (b : Nat) (h : 0xC0 ≤ b) : runeStartByte b = true := by
  unfold runeStartByte
  rw [if_neg (by omega), if_pos h]

theorem runeStartByte_of_cont (b : Nat) (h1 : 0x80 ≤ b) (h2 : b ≤ 0xBF) : runeStartByte b = false := by
  unfold runeStartByte
  rw [if_neg (by omega), if_neg (by omega)]

theorem utf8DecodeLast_append_encode (l : List Nat) (cp : Nat) (h : ValidScalar cp) :
    utf8DecodeLast (l ++ utf8Encode cp) = Utf8LastDec.ok cp (utf8Encode cp).length := by
  obtain ⟨hlt, hsur⟩ := h
  have hdec := utf8DecodeFirst_encode cp ⟨hlt, hsur⟩ []
  rw [List.append_nil] at hdec
  by_cases h1 : cp < 0x80
  · have henc : utf8Encode cp = [cp] := by simp [utf8Encode, if_pos h1]
    rw [henc]
    have hrev : (l ++ [cp]).reverse = cp :: l.reverse := by simp
    unfold utf8DecodeLast
    simp only [hrev]
    rw [if_pos h1]
    simp
  · by_cases h2 : cp < 0x800
    · have henc : utf8Encode cp = [0xC0 + cp / 64, 0x80 + cp % 64] := by
        simp only [utf8Encode, if_neg h1, if_pos h2]
      rw [henc]
      have hrev : (l ++ [0xC0 + cp / 64, 0x80 + cp % 64]).reverse
          = (0x80 + cp % 64) :: (0xC0 + cp / 64) :: l.reverse := by simp
      have hsearch : searchRuneStart ((0xC0 + cp / 64) :: l.reverse) 3 = some 0 := by
        simp [searchRuneStart, runeStartByte_of_lead _ (by omega : (0xC0 : Nat) ≤ 0xC0 + cp / 64)]
      have hidx : (l ++ [0xC0 + cp / 64, 0x80 + cp % 64]).length - (0 + 2) = l.length := by
        simp [List.length_append]
      have hdrop : (l ++ [0xC0 + cp / 64, 0x80 + cp % 64]).drop
          ((l ++ [0xC0 + cp / 64, 0x80 + cp % 64]).length - (0 + 2)) = [0xC0 + cp / 64, 0x80 + cp % 64] := by
        rw [hidx]
        exact List.drop_left _ _
      rw [henc] at hdec
      unfold utf8DecodeLast
      simp only [hrev]
      rw [if_neg (by omega)]
      simp only [hsearch, hdrop, hdec]
      simp
    · by_cases h3 : cp < 0x10000
      · have henc : utf8Encode cp = [0xE0 + cp / 4096, 0x80 + cp / 64 % 64, 0x80 + cp % 64] := by
          simp only [utf8Encode, if_neg h1, if_neg h2, if_pos h3]
        rw [henc]
        have hrev : (l ++ [0xE0 + cp / 4096, 0x80 + cp / 64 % 64, 0x80 + cp % 64]).reverse
            = (0x80 + cp % 64) :: (0x80 + cp / 64 % 64) :: (0xE0 + cp / 4096) :: l.reverse := by simp
        have hsearch : searchRuneStart ((0x80 + cp / 64 % 64) :: (0xE0 + cp / 4096) :: l.reverse) 3 = some 1 := by
          simp [searchRuneStart,
            runeStartByte_of_cont _ (by omega) (by omega : (0x80 : Nat) + cp / 64 % 64 ≤ 0xBF),
            runeStartByte_of_lead _ (by omega : (0xC0 : Nat) ≤ 0xE0 + cp / 4096)]
        have hidx : (l ++ [0xE0 + cp / 4096, 0x80 + cp / 64 % 64, 0x80 + cp % 64]).length - (1 + 2) = l.length := by
          simp [List.length_append]
        have hdrop : (l ++ [0xE0 + cp / 4096, 0x80 + cp / 64 % 64, 0x80 + cp % 64]).drop
            ((l ++ [0xE0 + cp / 4096, 0x80 + cp / 64 % 64, 0x80 + cp % 64]).length - (1 + 2))
            = [0xE0 + cp / 4096, 0x80 + cp / 64 % 64, 0x80 + cp % 64] := by
          rw [hidx]
          exact List.drop_left _ _
        rw [henc] at hdec
        unfold utf8DecodeLast
        simp only [hrev]
        rw [if_neg (by omega)]
        simp only [hsearch, hdrop, hdec]
        simp
      · have henc : utf8Encode cp = [0xF0 + cp / 262144, 0x80 + cp / 4096 % 64, 0x80 + cp / 64 % 64, 0x80 + cp % 64] := by
          simp only [utf8Encode, if_neg h1, if_neg h2, if_neg h3]
        rw [henc]
        have hrev : (l ++ [0xF0 + cp / 262144, 0x80 + cp / 4096 % 64, 0x80 + cp / 64 % 64, 0x80 + cp % 64]).reverse
            = (0x80 + cp % 64) :: (0x80 + cp / 64 % 64) :: (0x80 + cp / 4096 % 64) :: (0xF0 + cp / 262144) :: l.reverse := by
          simp
        have hsearch : searchRuneStart ((0x80 + cp / 64 % 64) :: (0x80 + cp / 4096 % 64) :: (0xF0 + cp / 262144) :: l.reverse) 3 = some 2 := by
          simp [searchRuneStart,
            runeStartByte_of_cont _ (by omega) (by omega : (0x80 : Nat) + cp / 64 % 64 ≤ 0xBF),
            runeStartByte_of_cont _ (by omega) (by omega : (0x80 : Nat) + cp / 4096 % 64 ≤ 0xBF),
            runeStartByte_of_lead _ (by omega : (0xC0 : Nat) ≤ 0xF0 + cp / 262144)]
        have hidx : (l ++ [0xF0 + cp / 262144, 0x80 + cp / 4096 % 64, 0x80 + cp / 64 % 64, 0x80 + cp % 64]).length - (2 + 2) = l.length := by
          simp [List.length_append]
        have hdrop : (l ++ [0xF0 + cp / 262144, 0x80 + cp / 4096 % 64, 0x80 + cp / 64 % 64, 0x80 + cp % 64]).drop
            ((l ++ [0xF0 + cp / 262144, 0x80 + cp / 4096 % 64, 0x80 + cp / 64 % 64, 0x80 + cp % 64]).length - (2 + 2))
            = [0xF0 + cp / 262144, 0x80 + cp / 4096 % 64, 0x80 + cp / 64 % 64, 0x80 + cp % 64] := by
          rw [hidx]
          exact List.drop_left _ _
        rw [henc] at hdec
        unfold utf8DecodeLast
        simp only [hrev]
        rw [if_neg (by omega)]
        simp only [hsearch, hdrop, hdec]
        simp

theorem utf8DecodeLast_ok_inv (l : List Nat) (cp w : Nat) (h : utf8DecodeLast l = Utf8LastDec.ok cp w) :
    1 ≤ w ∧ w ≤ l.length := by
  unfold utf8DecodeLast at h
  match hrev : l.reverse with
  | [] =>
    simp only [hrev] at h
    exact absurd h (by simp)
  | b :: rest =>
    simp only [hrev] at h
    have hlen : l.length = rest.length + 1 := by
      have := congrArg List.length hrev
      simpa using this
    by_cases a1 : b < 0x80
    · rw [if_pos a1] at h
      obtain ⟨hcp, hw⟩ := Utf8LastDec.ok.inj h
      omega
    · rw [if_neg a1] at h
      match hsearch : searchRuneStart rest 3 with
      | none =>
        simp only [hsearch] at h
        exact absurd h (by simp)
      | some k =>
        simp only [hsearch] at h
        match hdec : utf8DecodeFirst (l.drop (l.length - (k + 2))) with
        | Utf8Dec.ok cp2 w2 =>
          simp only [hdec] at h
          by_cases a2 : w2 = k + 2
          · rw [if_pos a2] at h
            obtain ⟨hcp, hw⟩ := Utf8LastDec.ok.inj h
            have hinv := utf8DecodeFirst_ok_inv _ _ _ hdec
            have hdl : (l.drop (l.length - (k + 2))).length = l.length - (l.length - (k + 2)) := by
              simp
            omega
          · rw [if_neg a2] at h; simp at h
        | Utf8Dec.invalid =>
          simp only [hdec] at h
          exact absurd h (by simp)
        | Utf8Dec.incomplete =>
          simp only [hdec] at h
          exact absurd h (by simp)

theorem ReadsUnits_nil (ops : NibblerOps σ) (s t : σ) (h : ReadsUnits ops s [] t) : s = t := h

theorem readConsecutiveCharactersMatching_progress (ops : NibblerOps σ) (p : Nat → Bool)
    (cs : List Nat) (t : σ) (fuel : Nat) :
    ∀ (s : σ) (acc : List Nat), ReadsUnits ops s cs t → (∀ c ∈ cs, p c = true) →
    readConsecutiveCharactersMatching ops p (cs.length + fuel) s acc
      = readConsecutiveCharactersMatching ops p fuel t (acc ++ cs) := by
  induction cs with
  | nil =>
    intro s acc hread _
    obtain rfl := ReadsUnits_nil ops s t hread
    simp
  | cons c cs ih =>
    intro s acc hread hmatch
    obtain ⟨s1, hr, hrest⟩ := hread
    have hfuel : (c :: cs).length + fuel = cs.length + fuel + 1 := by
      simp only [List.length_cons]; omega
    rw [hfuel]
    have hpc : p c = true := hmatch c (by simp)
    simp only [readConsecutiveCharactersMatching, hr, hpc, if_true]
    rw [ih s1 (acc ++ [c]) hrest (fun x hx => hmatch x (List.mem_cons_of_mem _ hx))]
    simp

theorem readConsecutiveCharactersNotMatching_progress (ops : NibblerOps σ) (p : Nat → Bool)
    (cs : List Nat) (t : σ) (fuel : Nat) :
    ∀ (s : σ) (acc : List Nat), ReadsUnits ops s cs t → (∀ c ∈ cs, p c = false) →
    readConsecutiveCharactersNotMatching ops p (cs.length + fuel) s acc
      = readConsecutiveCharactersNotMatching ops p fuel t (acc ++ cs) := by
  induction cs with
  | nil =>
    intro s acc hread _
    obtain rfl := ReadsUnits_nil ops s t hread
    simp
  | cons c cs ih =>
    intro s acc hread hmatch
    obtain ⟨s1, hr, hrest⟩ := hread
    have hfuel : (c :: cs).length + fuel = cs.length + fuel + 1 := by
      simp only [List.length_cons]; omega
    rw [hfuel]
    have hpc : p c = false := hmatch c (by simp)
    simp only [readConsecutiveCharactersNotMatching, hr, hpc, Bool.false_eq_true, if_false]
    rw [ih s1 (acc ++ [c]) hrest (fun x hx => hmatch x (List.mem_cons_of_mem _ hx))]
    simp

theorem readNextBytesMatchingSetLoop_progress (ops : NibblerOps σ) (setMap : List Nat)
    (bs : List Nat) (t : σ) (fuel : Nat) :
    ∀ (s : σ) (acc : List Nat), ReadsUnits ops s bs t → (∀ b ∈ bs, setMap.contains b = true) →
    readNextBytesMatchingSetLoop ops setMap (bs.length + fuel) s acc
      = readNextBytesMatchingSetLoop ops setMap fuel t (acc ++ bs) := by
  induction bs with
  | nil =>
    intro s acc hread _
    obtain rfl := ReadsUnits_nil ops s t hread
    simp
  | cons b bs ih =>
    intro s acc hread hmem
    obtain ⟨s1, hr, hrest⟩ := hread
    have hfuel : (b :: bs).length + fuel = bs.length + fuel + 1 := by
      simp only [List.length_cons]; omega
    rw [hfuel]
    have hpb : setMap.contains b = true := hmem b (by simp)
    simp only [readNextBytesMatchingSetLoop, hr, hpb, if_true]
    rw [ih s1 (acc ++ [b]) hrest (fun x hx => hmem x (List.mem_cons_of_mem _ hx))]
    simp

theorem readNextBytesNotMatchingSetLoop_progress (ops : NibblerOps σ) (setMap : List Nat)
    (bs : List Nat) (t : σ) (fuel : Nat) :
    ∀ (s : σ) (acc : List Nat), ReadsUnits ops s bs t → (∀ b ∈ bs, setMap.contains b = false) →
    readNextBytesNotMatchingSetLoop ops setMap (bs.length + fuel) s acc
      = readNextBytesNotMatchingSetLoop ops setMap fuel t (acc ++ bs) := by
  induction bs with
  | nil =>
    intro s acc hread _
    obtain rfl := ReadsUnits_nil ops s t hread
    simp
  | cons b bs ih =>
    intro s acc hread hmem
    obtain ⟨s1, hr, hrest⟩ := hread
    have hfuel : (b :: bs).length + fuel = bs.length + fuel + 1 := by
      simp only [List.length_cons]; omega
    rw [hfuel]
    have hpb : setMap.contains b = false := hmem b (by simp)
    simp only [readNextBytesNotMatchingSetLoop, hr, hpb, Bool.false_eq_true, if_false]
    rw [ih s1 (acc ++ [b]) hrest (fun x hx => hmem x (List.mem_cons_of_mem _ hx))]
    simp

theorem readConsecutiveCharactersMatchingInto_progress (ops : NibblerOps σ) (p : Nat → Bool)
    (cs : List Nat) (t : σ) (fuel : Nat) :
    ∀ (s : σ) (receiver : List Nat) (i : Nat), ReadsUnits ops s cs t → (∀ c ∈ cs, p c = true) →
    i + cs.length ≤ receiver.length →
    readConsecutiveCharactersMatchingInto ops p (cs.length + fuel) s receiver i
      = readConsecutiveCharactersMatchingInto ops p fuel t (listOverwrite receiver i cs) (i + cs.length) := by
  induction cs with
  | nil =>
    intro s receiver i hread _ _
    obtain rfl := ReadsUnits_nil ops s t hread
    simp [listOverwrite]
  | cons c cs ih =>
    intro s receiver i hread hmatch hcap
    obtain ⟨s1, hr, hrest⟩ := hread
    have hfuel : (c :: cs).length + fuel = cs.length + fuel + 1 := by
      simp only [List.length_cons]; omega
    rw [hfuel]
    have hpc : p c = true := hmatch c (by simp)
    have hi : i < receiver.length := by
      simp only [List.length_cons] at hcap; omega
    simp only [readConsecutiveCharactersMatchingInto, hr, hpc, if_true, if_pos hi]
    rw [ih s1 (receiver.set i c) (i + 1) hrest (fun x hx => hmatch x (List.mem_cons_of_mem _ hx))
      (by simp only [List.length_set, List.length_cons] at hcap ⊢; omega)]
    have h1 : listOverwrite receiver i (c :: cs) = listOverwrite (receiver.set i c) (i + 1) cs := rfl
    have h2 : i + (c :: cs).length = i + 1 + cs.length := by
      simp only [List.length_cons]; omega
    rw [h1, h2]

theorem readConsecutiveCharactersNotMatchingInto_progress (ops : NibblerOps σ) (p : Nat → Bool)
    (cs : List Nat) (t : σ) (fuel : Nat) :
    ∀ (s : σ) (receiver : List Nat) (i : Nat), ReadsUnits ops s cs t → (∀ c ∈ cs, p c = false) →
    i + cs.length ≤ receiver.length →
    readConsecutiveCharactersNotMatchingInto ops p (cs.length + fuel) s receiver i
      = readConsecutiveCharactersNotMatchingInto ops p fuel t (listOverwrite receiver i cs) (i + cs.length) := by
  induction cs with
  | nil =>
    intro s receiver i hread _ _
    obtain rfl := ReadsUnits_nil ops s t hread
    simp [listOverwrite]
  | cons c cs ih =>
    intro s receiver i hread hmatch hcap
    obtain ⟨s1, hr, hrest⟩ := hread
    have hfuel : (c :: cs).length + fuel = cs.length + fuel + 1 := by
      simp only [List.length_cons]; omega
    rw [hfuel]
    have hpc : p c = false := hmatch c (by simp)
    have hi : i < receiver.length := by
      simp only [List.length_cons] at hcap; omega
    simp only [readConsecutiveCharactersNotMatchingInto, hr, hpc, Bool.false_eq_true, if_false, if_pos hi]
    rw [ih s1 (receiver.set i c) (i + 1) hrest (fun x hx => hmatch x (List.mem_cons_of_mem _ hx))
      (by simp only [List.length_set, List.length_cons] at hcap ⊢; omega)]
    have h1 : listOverwrite receiver i (c :: cs) = listOverwrite (receiver.set i c) (i + 1) cs := rfl
    have h2 : i + (c :: cs).length = i + 1 + cs.length := by
      simp only [List.length_cons]; omega
    rw [h1, h2]

theorem listOverwrite_cons_shift (cs : List Nat) (x : Nat) (l : List Nat) (i : Nat) :
    listOverwrite (x :: l) (i + 1) cs = x :: listOverwrite l i cs := by
  induction cs generalizing l i x with
  | nil => simp [listOverwrite]
  | cons c cs ih =>
    show listOverwrite ((x :: l).set (i + 1) c) (i + 2) cs = x :: listOverwrite (l.set i c) (i + 1) cs
    rw [List.set_cons_succ]
    exact ih x (l.set i c) (i + 1)

theorem listOverwrite_zero (cs : List Nat) : ∀ (receiver : List Nat), cs.length ≤ receiver.length →
    listOverwrite receiver 0 cs = cs ++ receiver.drop cs.length := by
  induction cs with
  | nil => intro receiver _; simp [listOverwrite]
  | cons c cs ih =>
    intro receiver hcap
    match receiver with
    | [] => simp at hcap
    | r :: rs =>
      show listOverwrite ((r :: rs).set 0 c) 1 cs = (c :: cs) ++ (r :: rs).drop (cs.length + 1)
      rw [List.set_cons_zero]
      rw [listOverwrite_cons_shift]
      rw [ih rs (by simpa using hcap)]
      simp

theorem readConsecutiveCharactersMatching_rel (ops : NibblerOps σ) (R : σ → σ → Prop)
    (hR : Transitive R) (hread : ∀ s, R s (ops.readUnit s).2) (hunread : ∀ s, R s (ops.unreadUnit s).2)
    (p : Nat → Bool) (fuel : Nat) :
    ∀ (s : σ) (acc : List Nat) (res : List Nat × Option GoErr × σ),
    readConsecutiveCharactersMatching ops p fuel s acc = some res → R s res.2.2 := by
  induction fuel with
  | zero => intro s acc res h; simp [readConsecutiveCharactersMatching] at h
  | succ fuel ih =>
    intro s acc res h
    have hstep : R s (ops.readUnit s).2 := hread s
    match hr : ops.readUnit s with
    | (Except.error e, s1) =>
      rw [hr] at hstep
      simp only [readConsecutiveCharactersMatching, hr] at h
      split_ifs at h <;> (obtain rfl := Option.some.inj h; exact hstep)
    | (Except.ok c, s1) =>
      rw [hr] at hstep
      simp only [readConsecutiveCharactersMatching, hr] at h
      by_cases hpc : p c = true
      · rw [if_pos hpc] at h
        exact hR hstep (ih s1 (acc ++ [c]) res h)
      · rw [if_neg hpc] at h
        obtain rfl := Option.some.inj h
        exact hR hstep (hunread s1)

theorem readConsecutiveCharactersNotMatching_rel (ops : NibblerOps σ) (R : σ → σ → Prop)
    (hR : Transitive R) (hread : ∀ s, R s (ops.readUnit s).2) (hunread : ∀ s, R s (ops.unreadUnit s).2)
    (p : Nat → Bool) (fuel : Nat) :
    ∀ (s : σ) (acc : List Nat) (res : List Nat × Option GoErr × σ),
    readConsecutiveCharactersNotMatching ops p fuel s acc = some res → R s res.2.2 := by
  induction fuel with
  | zero => intro s acc res h; simp [readConsecutiveCharactersNotMatching] at h
  | succ fuel ih =>
    intro s acc res h
    have hstep : R s (ops.readUnit s).2 := hread s
    match hr : ops.readUnit s with
    | (Except.error e, s1) =>
      rw [hr] at hstep
      simp only [readConsecutiveCharactersNotMatching, hr] at h
      split_ifs at h <;> (obtain rfl := Option.some.inj h; exact hstep)
    | (Except.ok c, s1) =>
      rw [hr] at hstep
      simp only [readConsecutiveCharactersNotMatching, hr] at h
      by_cases hpc : p c = true
      · rw [if_pos hpc] at h
        obtain rfl := Option.some.inj h
        exact hR hstep (hunread s1)
      · rw [if_neg hpc] at h
        exact hR hstep (ih s1 (acc ++ [c]) res h)

theorem readConsecutiveCharactersMatchingInto_rel (ops : NibblerOps σ) (R : σ → σ → Prop)
    (hrfl : Reflexive R) (hR : Transitive R)
    (hread : ∀ s, R s (ops.readUnit s).2) (hunread : ∀ s, R s (ops.unreadUnit s).2)
    (p : Nat → Bool) (fuel : Nat) :
    ∀ (s : σ) (receiver : List Nat) (i : Nat) (res : Int × Option GoErr × List Nat × σ),
    readConsecutiveCharactersMatchingInto ops p fuel s receiver i = some res → R s res.2.2.2 := by
  induction fuel with
  | zero => intro s receiver i res h; simp [readConsecutiveCharactersMatchingInto] at h
  | succ fuel ih =>
    intro s receiver i res h
    simp only [readConsecutiveCharactersMatchingInto] at h
    by_cases hi : i < receiver.length
    · rw [if_pos hi] at h
      have hstep : R s (ops.readUnit s).2 := hread s
      match hr : ops.readUnit s with
      | (Except.error e, s1) =>
        rw [hr] at hstep
        simp only [hr] at h
        split_ifs at h <;> (obtain rfl := Option.some.inj h; exact hstep)
      | (Except.ok c, s1) =>
        rw [hr] at hstep
        simp only [hr] at h
        by_cases hpc : p c = true
        · rw [if_pos hpc] at h
          exact hR hstep (ih s1 (receiver.set i c) (i + 1) res h)
        · rw [if_neg hpc] at h
          obtain rfl := Option.some.inj h
          exact hR hstep (hunread s1)
    · rw [if_neg hi] at h
      obtain rfl := Option.some.inj h
      exact hrfl s

theorem readConsecutiveCharactersNotMatchingInto_rel (ops : NibblerOps σ) (R : σ → σ → Prop)
    (hrfl : Reflexive R) (hR : Transitive R)
    (hread : ∀ s, R s (ops.readUnit s).2) (hunread : ∀ s, R s (ops.unreadUnit s).2)
    (p : Nat → Bool) (fuel : Nat) :
    ∀ (s : σ) (receiver : List Nat) (i : Nat) (res : Int × Option GoErr × List Nat × σ),
    readConsecutiveCharactersNotMatchingInto ops p fuel s receiver i = some res → R s res.2.2.2 := by
  induction fuel with
  | zero => intro s receiver i res h; simp [readConsecutiveCharactersNotMatchingInto] at h
  | succ fuel ih =>
    intro s receiver i res h
    simp only [readConsecutiveCharactersNotMatchingInto] at h
    by_cases hi : i < receiver.length
    · rw [if_pos hi] at h
      have hstep : R s (ops.readUnit s).2 := hread s
      match hr : ops.readUnit s with
      | (Except.error e, s1) =>
        rw [hr] at hstep
        simp only [hr] at h
        split_ifs at h <;> (obtain rfl := Option.some.inj h; exact hstep)
      | (Except.ok c, s1) =>
        rw [hr] at hstep
        simp only [hr] at h
        by_cases hpc : p c = true
        · rw [if_pos hpc] at h
          obtain rfl := Option.some.inj h
          exact hR hstep (hunread s1)
        · rw [if_neg hpc] at h
          exact hR hstep (ih s1 (receiver.set i c) (i + 1) res h)
    · rw [if_neg hi] at h
      obtain rfl := Option.some.inj h
      exact hrfl s

theorem readNextBytesMatchingSetLoop_rel (ops : NibblerOps σ) (R : σ → σ → Prop)
    (hR : Transitive R) (hread : ∀ s, R s (ops.readUnit s).2) (hunread : ∀ s, R s (ops.unreadUnit s).2)
    (setMap : List Nat) (fuel : Nat) :
    ∀ (s : σ) (acc : List Nat) (res : List Nat × Option GoErr × σ),
    readNextBytesMatchingSetLoop ops setMap fuel s acc = some res → R s res.2.2 := by
  induction fuel with
  | zero => intro s acc res h; simp [readNextBytesMatchingSetLoop] at h
  | succ fuel ih =>
    intro s acc res h
    have hstep : R s (ops.readUnit s).2 := hread s
    match hr : ops.readUnit s with
    | (Except.error e, s1) =>
      rw [hr] at hstep
      simp only [readNextBytesMatchingSetLoop, hr] at h
      obtain rfl := Option.some.inj h
      exact hstep
    | (Except.ok b, s1) =>
      rw [hr] at hstep
      simp only [readNextBytesMatchingSetLoop, hr] at h
      by_cases hpb : setMap.contains b = true
      · rw [if_pos hpb] at h
        exact hR hstep (ih s1 (acc ++ [b]) res h)
      · rw [if_neg hpb] at h
        obtain rfl := Option.some.inj h
        exact hR hstep (hunread s1)

theorem readNextBytesNotMatchingSetLoop_rel (ops : NibblerOps σ) (R : σ → σ → Prop)
    (hR : Transitive R) (hread : ∀ s, R s (ops.readUnit s).2) (hunread : ∀ s, R s (ops.unreadUnit s).2)
    (setMap : List Nat) (fuel : Nat) :
    ∀ (s : σ) (acc : List Nat) (res : List Nat × Option GoErr × σ),
    readNextBytesNotMatchingSetLoop ops setMap fuel s acc = some res → R s res.2.2 := by
  induction fuel with
  | zero => intro s acc res h; simp [readNextBytesNotMatchingSetLoop] at h
  | succ fuel ih =>
    intro s acc res h
    have hstep : R s (ops.readUnit s).2 := hread s
    match hr : ops.readUnit s with
    | (Except.error e, s1) =>
      rw [hr] at hstep
      simp only [readNextBytesNotMatchingSetLoop, hr] at h
      obtain rfl := Option.some.inj h
      exact hstep
    | (Except.ok b, s1) =>
      rw [hr] at hstep
      simp only [readNextBytesNotMatchingSetLoop, hr] at h
      by_cases hpb : setMap.contains b = true
      · rw [if_pos hpb] at h
        obtain rfl := Option.some.inj h
        exact hR hstep (hunread s1)
      · rw [if_neg hpb] at h
        exact hR hstep (ih s1 (acc ++ [b]) res h)

theorem readNextBytesMatchingSet_rel (ops : NibblerOps σ) (R : σ → σ → Prop)
    (hrfl : Reflexive R) (hR : Transitive R)
    (hread : ∀ s, R s (ops.readUnit s).2) (hunread : ∀ s, R s (ops.unreadUnit s).2)
    (maybeSets : Option NamedCharacterSetsMap) (setName : String) (fuel : Nat) :
    ∀ (s : σ) (res : List Nat × Option GoErr × σ),
    readNextBytesMatchingSet ops maybeSets setName fuel s = some res → R s res.2.2 := by
  intro s res h
  unfold readNextBytesMatchingSet at h
  match maybeSets with
  | none =>
    obtain rfl := Option.some.inj h
    exact hrfl s
  | some sets =>
    simp only at h
    match hret : sets.retrieveNamedCharacterSet setName with
    | none =>
      simp only [hret] at h
      obtain rfl := Option.some.inj h
      exact hrfl s
    | some setMap =>
      simp only [hret] at h
      exact readNextBytesMatchingSetLoop_rel ops R hR hread hunread setMap fuel s [] res h

theorem readNextBytesNotMatchingSet_rel (ops : NibblerOps σ) (R : σ → σ → Prop)
    (hrfl : Reflexive R) (hR : Transitive R)
    (hread : ∀ s, R s (ops.readUnit s).2) (hunread : ∀ s, R s (ops.unreadUnit s).2)
    (maybeSets : Option NamedCharacterSetsMap) (setName : String) (fuel : Nat) :
    ∀ (s : σ) (res : List Nat × Option GoErr × σ),
    readNextBytesNotMatchingSet ops maybeSets setName fuel s = some res → R s res.2.2 := by
  intro s res h
  unfold readNextBytesNotMatchingSet at h
  match maybeSets with
  | none =>
    obtain rfl := Option.some.inj h
    exact hrfl s
  | some sets =>
    simp only at h
    match hret : sets.retrieveNamedCharacterSet setName with
    | none =>
      simp only [hret] at h
      obtain rfl := Option.some.inj h
      exact hrfl s
    | some setMap =>
      simp only [hret] at h
      exact readNextBytesNotMatchingSetLoop_rel ops R hR hread hunread setMap fuel s [] res h

theorem ByteSliceNibbler.ReadByte_inv (nib : ByteSliceNibbler) (h : nib.PositionInvariant) :
    nib.ReadByte.2.PositionInvariant := by
  unfold ByteSliceNibbler.PositionInvariant at h ⊢
  unfold ByteSliceNibbler.ReadByte
  by_cases hc : nib.backingBuffer.length ≤ nib.indexInBufferOfNextReadByte
  · rw [if_pos hc]; exact h
  · rw [if_neg hc]; simp; omega

theorem ByteSliceNibbler.UnreadByte_inv (nib : ByteSliceNibbler) (h : nib.PositionInvariant) :
    nib.UnreadByte.2.PositionInvariant := by
  unfold ByteSliceNibbler.PositionInvariant at h ⊢
  unfold ByteSliceNibbler.UnreadByte
  by_cases hc : nib.indexInBufferOfNextReadByte = 0
  · rw [if_pos hc]; exact h
  · rw [if_neg hc]; simp; omega

theorem ByteSliceNibbler.PeekAtNextByte_inv (nib : ByteSliceNibbler) (h : nib.PositionInvariant) :
    nib.PeekAtNextByte.2.PositionInvariant := by
  unfold ByteSliceNibbler.PositionInvariant at h ⊢
  unfold ByteSliceNibbler.PeekAtNextByte
  by_cases hc : nib.backingBuffer.length ≤ nib.indexInBufferOfNextReadByte
  · rw [if_pos hc]; exact h
  · rw [if_neg hc]; exact h

/-- Combined step relation for the stream-backed byte cursor: the step
keeps the position invariant and only appends to the internal buffer. -/
def ByteReaderStep (a b : ByteReaderNibbler) : Prop :=
  (a.PositionInvariant → b.PositionInvariant) ∧ ByteReaderNibbler.BufferGrows a b

theorem ByteReaderStep_refl : Reflexive ByteReaderStep := by
  intro a
  exact ⟨id, ⟨[], by simp⟩⟩

theorem ByteReaderStep_trans : Transitive ByteReaderStep := by
  intro a b c hab hbc
  obtain ⟨hi1, e1, he1⟩ := hab
  obtain ⟨hi2, e2, he2⟩ := hbc
  exact ⟨fun h => hi2 (hi1 h), ⟨e1 ++ e2, by rw [he2, he1, List.append_assoc]⟩⟩

theorem ByteReaderNibbler.readFromStream_spec (nib : ByteReaderNibbler) :
    (nib.readFromStreamAndAppendToInternalBuffer.2.indexOfNextReadByteInBuffer
      = nib.indexOfNextReadByteInBuffer)
    ∧ (∃ ext, nib.readFromStreamAndAppendToInternalBuffer.2.internalBuffer
        = nib.internalBuffer ++ ext
        ∧ (nib.readFromStreamAndAppendToInternalBuffer.1 = none → 0 < ext.length)) := by
  unfold ByteReaderNibbler.readFromStreamAndAppendToInternalBuffer
  match nib.backingReaderEvents with
  | [] => exact ⟨rfl, ⟨[], by simp, by intro h; cases h⟩⟩
  | ReadEvent.eof :: rest => exact ⟨rfl, ⟨[], by simp, by intro h; cases h⟩⟩
  | ReadEvent.fault m :: rest => exact ⟨rfl, ⟨[], by simp, by intro h; cases h⟩⟩
  | ReadEvent.bytes bs :: rest =>
    dsimp only
    by_cases hb : 0 < bs.length
    · rw [if_pos hb]
      exact ⟨rfl, ⟨bs, rfl, fun _ => hb⟩⟩
    · rw [if_neg hb]
      exact ⟨rfl, ⟨[], by simp, by intro h; cases h⟩⟩

theorem ByteReaderNibbler.ReadByte_step (nib : ByteReaderNibbler) :
    ByteReaderStep nib nib.ReadByte.2 := by
  unfold ByteReaderNibbler.ReadByte
  by_cases hc : nib.internalBuffer.length ≤ nib.indexOfNextReadByteInBuffer
  · rw [if_pos hc]
    obtain ⟨hidx, ext, hbuf, hext⟩ := nib.readFromStream_spec
    match hr : nib.readFromStreamAndAppendToInternalBuffer with
    | (some e, nib1) =>
      rw [hr] at hidx hbuf
      dsimp only at hidx hbuf ⊢
      constructor
      · intro hinv
        unfold ByteReaderNibbler.PositionInvariant at hinv ⊢
        rw [hidx, hbuf, List.length_append]
        omega
      · exact ⟨ext, hbuf⟩
    | (none, nib1) =>
      rw [hr] at hidx hbuf
      have hext1 : 0 < ext.length := by
        apply hext
        rw [hr]
      dsimp only at hidx hbuf ⊢
      constructor
      · intro hinv
        unfold ByteReaderNibbler.PositionInvariant at hinv ⊢
        dsimp only
        rw [hidx, hbuf, List.length_append]
        omega
      · exact ⟨ext, hbuf⟩
  · rw [if_neg hc]
    constructor
    · intro hinv
      unfold ByteReaderNibbler.PositionInvariant at hinv ⊢
      dsimp only
      omega
    · exact ⟨[], by simp⟩

theorem ByteReaderNibbler.UnreadByte_step (nib : ByteReaderNibbler) :
    ByteReaderStep nib nib.UnreadByte.2 := by
  unfold ByteReaderNibbler.UnreadByte
  by_cases hc : nib.indexOfNextReadByteInBuffer < 1
  · rw [if_pos hc]
    exact ByteReaderStep_refl nib
  · rw [if_neg hc]
    constructor
    · intro h
      unfold ByteReaderNibbler.PositionInvariant at h ⊢
      simp only
      omega
    · exact ⟨[], by simp⟩

theorem ByteReaderNibbler.PeekAtNextByte_step (nib : ByteReaderNibbler) :
    ByteReaderStep nib nib.PeekAtNextByte.2 := by
  unfold ByteReaderNibbler.PeekAtNextByte
  by_cases hc : nib.internalBuffer.length ≤ nib.indexOfNextReadByteInBuffer
  · rw [if_pos hc]
    obtain ⟨hidx, ext, hbuf, hext⟩ := nib.readFromStream_spec
    match hr : nib.readFromStreamAndAppendToInternalBuffer with
    | (some e, nib1) =>
      rw [hr] at hidx hbuf
      dsimp only at hidx hbuf ⊢
      constructor
      · intro hinv
        unfold ByteReaderNibbler.PositionInvariant at hinv ⊢
        rw [hidx, hbuf, List.length_append]
        omega
      · exact ⟨ext, hbuf⟩
    | (none, nib1) =>
      rw [hr] at hidx hbuf
      dsimp only at hidx hbuf ⊢
      constructor
      · intro hinv
        unfold ByteReaderNibbler.PositionInvariant at hinv ⊢
        rw [hidx, hbuf, List.length_append]
        omega
      · exact ⟨ext, hbuf⟩
  · rw [if_neg hc]
    exact ByteReaderStep_refl nib

theorem utf8StringReadCharacter_inv (nib : UTF8StringNibbler) (h : nib.PositionInvariant) :
    nib.ReadCharacter.2.PositionInvariant := by
  unfold UTF8StringNibbler.PositionInvariant at h ⊢
  unfold UTF8StringNibbler.ReadCharacter
  by_cases hc : nib.backingString.length ≤ nib.indexInStringOfNextReadByte
  · rw [if_pos hc]; exact h
  · rw [if_neg hc]
    match hdec : utf8DecodeFirst (nib.backingString.drop nib.indexInStringOfNextReadByte) with
    | Utf8Dec.ok cp w =>
      dsimp only
      by_cases hf : cp = 0xFFFD
      · rw [if_pos hf]; exact h
      · rw [if_neg hf]
        dsimp only
        obtain ⟨_, _, hw, _, _⟩ := utf8DecodeFirst_ok_inv _ _ _ hdec
        rw [List.length_drop] at hw
        omega
    | Utf8Dec.invalid => exact h
    | Utf8Dec.incomplete => exact h

theorem utf8StringUnreadCharacter_inv (nib : UTF8StringNibbler) (h : nib.PositionInvariant) :
    nib.UnreadCharacter.2.PositionInvariant := by
  unfold UTF8StringNibbler.PositionInvariant at h ⊢
  unfold UTF8StringNibbler.UnreadCharacter
  match hdec : utf8DecodeLast (nib.backingString.take nib.indexInStringOfNextReadByte) with
  | Utf8LastDec.empty => exact h
  | Utf8LastDec.invalid => exact h
  | Utf8LastDec.ok cp w =>
    dsimp only
    by_cases hf : cp = 0xFFFD
    · rw [if_pos hf]; exact h
    · rw [if_neg hf]
      dsimp only
      omega

theorem utf8StringPeekAtNextCharacter_inv (nib : UTF8StringNibbler) (h : nib.PositionInvariant) :
    nib.PeekAtNextCharacter.2.PositionInvariant := by
  unfold UTF8StringNibbler.PositionInvariant at h ⊢
  unfold UTF8StringNibbler.PeekAtNextCharacter
  by_cases hc : nib.backingString.length ≤ nib.indexInStringOfNextReadByte
  · rw [if_pos hc]; exact h
  · rw [if_neg hc]
    match hdec : utf8DecodeFirst (nib.backingString.drop nib.indexInStringOfNextReadByte) with
    | Utf8Dec.ok cp w =>
      dsimp only
      by_cases hf : cp = 0xFFFD
      · rw [if_pos hf]; exact h
      · rw [if_neg hf]; exact h
    | Utf8Dec.invalid => exact h
    | Utf8Dec.incomplete => exact h

theorem utf8RuneSliceReadCharacter_inv (nib : UTF8RuneSliceNibbler) (h : nib.PositionInvariant) :
    nib.ReadCharacter.2.PositionInvariant := by
  unfold UTF8RuneSliceNibbler.PositionInvariant at h ⊢
  unfold UTF8RuneSliceNibbler.ReadCharacter
  by_cases hc : nib.indexOfLastReadRune = (nib.backingSlice.length : Int) - 1
  · rw [if_pos hc]; exact h
  · rw [if_neg hc]
    dsimp only
    omega

theorem utf8RuneSliceUnreadCharacter_inv (nib : UTF8RuneSliceNibbler) (h : nib.PositionInvariant) :
    nib.UnreadCharacter.2.PositionInvariant := by
  unfold UTF8RuneSliceNibbler.PositionInvariant at h ⊢
  unfold UTF8RuneSliceNibbler.UnreadCharacter
  by_cases hc : nib.indexOfLastReadRune < 0
  · rw [if_pos hc]; exact h
  · rw [if_neg hc]
    dsimp only
    omega

theorem utf8RuneSlicePeekAtNextCharacter_inv (nib : UTF8RuneSliceNibbler) (h : nib.PositionInvariant) :
    nib.PeekAtNextCharacter.2.PositionInvariant := by
  unfold UTF8RuneSliceNibbler.PositionInvariant at h ⊢
  unfold UTF8RuneSliceNibbler.PeekAtNextCharacter
  by_cases hc : nib.indexOfLastReadRune = (nib.backingSlice.length : Int) - 1
  · rw [if_pos hc]; exact h
  · rw [if_neg hc]; exact h

theorem runResultState_rel (R : σ → σ → Prop) (hrfl : Reflexive R) (s : σ)
    (e : Option (List Nat × Option GoErr × σ))
    (hrel : ∀ res, e = some res → R s res.2.2) : R s (runResultState s e) := by
  match e with
  | none => exact hrfl s
  | some res => exact hrel res rfl

theorem intoResultState_rel (R : σ → σ → Prop) (hrfl : Reflexive R) (s : σ)
    (e : Option (Int × Option GoErr × List Nat × σ))
    (hrel : ∀ res, e = some res → R s res.2.2.2) : R s (intoResultState s e) := by
  match e with
  | none => exact hrfl s
  | some res => exact hrel res rfl

theorem byteSliceApplyOp_inv (nib : ByteSliceNibbler) (op : ByteSliceOp) (h : nib.PositionInvariant) :
    (nib.applyOp op).PositionInvariant := by
  match op with
  | ByteSliceOp.readByte => exact nib.ReadByte_inv h
  | ByteSliceOp.unreadByte => exact nib.UnreadByte_inv h
  | ByteSliceOp.peekAtNextByte => exact nib.PeekAtNextByte_inv h
  | ByteSliceOp.readMatchingSet setName fuel =>
    exact runResultState_rel (fun x y => x.PositionInvariant → y.PositionInvariant)
      (fun x => id) nib _
      (fun res hres => readNextBytesMatchingSet_rel byteSliceNibblerOps
        (fun x y => x.PositionInvariant → y.PositionInvariant)
        (fun x => id) (fun _ _ _ hab hbc hx => hbc (hab hx))
        (fun s => s.ReadByte_inv) (fun s => s.UnreadByte_inv)
        nib.namedCharacterSets setName fuel nib res hres) h
  | ByteSliceOp.readNotMatchingSet setName fuel =>
    exact runResultState_rel (fun x y => x.PositionInvariant → y.PositionInvariant)
      (fun x => id) nib _
      (fun res hres => readNextBytesNotMatchingSet_rel byteSliceNibblerOps
        (fun x y => x.PositionInvariant → y.PositionInvariant)
        (fun x => id) (fun _ _ _ hab hbc hx => hbc (hab hx))
        (fun s => s.ReadByte_inv) (fun s => s.UnreadByte_inv)
        nib.namedCharacterSets setName fuel nib res hres) h

theorem byteSliceRunOps_inv (ops : List ByteSliceOp) :
    ∀ (nib : ByteSliceNibbler), nib.PositionInvariant → (nib.runOps ops).PositionInvariant := by
  induction ops with
  | nil => intro nib h; exact h
  | cons op ops ih =>
    intro nib h
    show ((nib.applyOp op).runOps ops).PositionInvariant
    exact ih _ (byteSliceApplyOp_inv nib op h)

theorem ByteReaderNibbler.applyOp_step (nib : ByteReaderNibbler) (op : ByteReaderOp) :
    ByteReaderStep nib (nib.applyOp op) := by
  match op with
  | ByteReaderOp.readByte => exact nib.ReadByte_step
  | ByteReaderOp.unreadByte => exact nib.UnreadByte_step
  | ByteReaderOp.peekAtNextByte => exact nib.PeekAtNextByte_step
  | ByteReaderOp.readMatchingSet setName fuel =>
    exact runResultState_rel ByteReaderStep ByteReaderStep_refl nib _
      (fun res hres => readNextBytesMatchingSet_rel byteReaderNibblerOps ByteReaderStep
        ByteReaderStep_refl ByteReaderStep_trans
        (fun s => s.ReadByte_step) (fun s => s.UnreadByte_step)
        nib.namedCharacterSets setName fuel nib res hres)
  | ByteReaderOp.readNotMatchingSet setName fuel =>
    exact runResultState_rel ByteReaderStep ByteReaderStep_refl nib _
      (fun res hres => readNextBytesNotMatchingSet_rel byteReaderNibblerOps ByteReaderStep
        ByteReaderStep_refl ByteReaderStep_trans
        (fun s => s.ReadByte_step) (fun s => s.UnreadByte_step)
        nib.namedCharacterSets setName fuel nib res hres)

theorem ByteReaderNibbler.runOps_step (ops : List ByteReaderOp) :
    ∀ (nib : ByteReaderNibbler), ByteReaderStep nib (nib.runOps ops) := by
  induction ops with
  | nil => intro nib; exact ByteReaderStep_refl nib
  | cons op ops ih =>
    intro nib
    show ByteReaderStep nib ((nib.applyOp op).runOps ops)
    exact ByteReaderStep_trans (nib.applyOp_step op) (ih (nib.applyOp op))

theorem utf8StringApplyOp_inv (nib : UTF8StringNibbler) (op : UTF8StringOp) (h : nib.PositionInvariant) :
    (nib.applyOp op).PositionInvariant := by
  match op with
  | UTF8StringOp.readCharacter => exact utf8StringReadCharacter_inv nib h
  | UTF8StringOp.unreadCharacter => exact utf8StringUnreadCharacter_inv nib h
  | UTF8StringOp.peekAtNextCharacter => exact utf8StringPeekAtNextCharacter_inv nib h
  | UTF8StringOp.readMatching matcher fuel =>
    exact runResultState_rel (fun x y => x.PositionInvariant → y.PositionInvariant)
      (fun x => id) nib _
      (fun res hres => readConsecutiveCharactersMatching_rel utf8StringNibblerOps
        (fun x y => x.PositionInvariant → y.PositionInvariant)
        (fun _ _ _ hab hbc hx => hbc (hab hx))
        (fun s => utf8StringReadCharacter_inv s) (fun s => utf8StringUnreadCharacter_inv s)
        matcher fuel nib [] res hres) h
  | UTF8StringOp.readNotMatching matcher fuel =>
    exact runResultState_rel (fun x y => x.PositionInvariant → y.PositionInvariant)
      (fun x => id) nib _
      (fun res hres => readConsecutiveCharactersNotMatching_rel utf8StringNibblerOps
        (fun x y => x.PositionInvariant → y.PositionInvariant)
        (fun _ _ _ hab hbc hx => hbc (hab hx))
        (fun s => utf8StringReadCharacter_inv s) (fun s => utf8StringUnreadCharacter_inv s)
        matcher fuel nib [] res hres) h
  | UTF8StringOp.readMatchingInto matcher receiver fuel =>
    exact intoResultState_rel (fun x y => x.PositionInvariant → y.PositionInvariant)
      (fun x => id) nib _
      (fun res hres => readConsecutiveCharactersMatchingInto_rel utf8StringNibblerOps
        (fun x y => x.PositionInvariant → y.PositionInvariant)
        (fun x => id) (fun _ _ _ hab hbc hx => hbc (hab hx))
        (fun s => utf8StringReadCharacter_inv s) (fun s => utf8StringUnreadCharacter_inv s)
        matcher fuel nib receiver 0 res hres) h
  | UTF8StringOp.readNotMatchingInto matcher receiver fuel =>
    exact intoResultState_rel (fun x y => x.PositionInvariant → y.PositionInvariant)
      (fun x => id) nib _
      (fun res hres => readConsecutiveCharactersNotMatchingInto_rel utf8StringNibblerOps
        (fun x y => x.PositionInvariant → y.PositionInvariant)
        (fun x => id) (fun _ _ _ hab hbc hx => hbc (hab hx))
        (fun s => utf8StringReadCharacter_inv s) (fun s => utf8StringUnreadCharacter_inv s)
        matcher fuel nib receiver 0 res hres) h

theorem utf8StringRunOps_inv (ops : List UTF8StringOp) :
    ∀ (nib : UTF8StringNibbler), nib.PositionInvariant → (nib.runOps ops).PositionInvariant := by
  induction ops with
  | nil => intro nib h; exact h
  | cons op ops ih =>
    intro nib h
    show ((nib.applyOp op).runOps ops).PositionInvariant
    exact ih _ (utf8StringApplyOp_inv nib op h)

theorem utf8RuneSliceApplyOp_inv (nib : UTF8RuneSliceNibbler) (op : UTF8RuneSliceOp) (h : nib.PositionInvariant) :
    (nib.applyOp op).PositionInvariant := by
  match op with
  | UTF8RuneSliceOp.readCharacter => exact utf8RuneSliceReadCharacter_inv nib h
  | UTF8RuneSliceOp.unreadCharacter => exact utf8RuneSliceUnreadCharacter_inv nib h
  | UTF8RuneSliceOp.peekAtNextCharacter => exact utf8RuneSlicePeekAtNextCharacter_inv nib h
  | UTF8RuneSliceOp.readMatching matcher fuel =>
    exact runResultState_rel (fun x y => x.PositionInvariant → y.PositionInvariant)
      (fun x => id) nib _
      (fun res hres => readConsecutiveCharactersMatching_rel utf8RuneSliceNibblerOps
        (fun x y => x.PositionInvariant → y.PositionInvariant)
        (fun _ _ _ hab hbc hx => hbc (hab hx))
        (fun s => utf8RuneSliceReadCharacter_inv s) (fun s => utf8RuneSliceUnreadCharacter_inv s)
        matcher fuel nib [] res hres) h
  | UTF8RuneSliceOp.readNotMatching matcher fuel =>
    exact runResultState_rel (fun x y => x.PositionInvariant → y.PositionInvariant)
      (fun x => id) nib _
      (fun res hres => readConsecutiveCharactersNotMatching_rel utf8RuneSliceNibblerOps
        (fun x y => x.PositionInvariant → y.PositionInvariant)
        (fun _ _ _ hab hbc hx => hbc (hab hx))
        (fun s => utf8RuneSliceReadCharacter_inv s) (fun s => utf8RuneSliceUnreadCharacter_inv s)
        matcher fuel nib [] res hres) h
  | UTF8RuneSliceOp.readMatchingInto matcher receiver fuel =>
    exact intoResultState_rel (fun x y => x.PositionInvariant → y.PositionInvariant)
      (fun x => id) nib _
      (fun res hres => readConsecutiveCharactersMatchingInto_rel utf8RuneSliceNibblerOps
        (fun x y => x.PositionInvariant → y.PositionInvariant)
        (fun x => id) (fun _ _ _ hab hbc hx => hbc (hab hx))
        (fun s => utf8RuneSliceReadCharacter_inv s) (fun s => utf8RuneSliceUnreadCharacter_inv s)
        matcher fuel nib receiver 0 res hres) h
  | UTF8RuneSliceOp.readNotMatchingInto matcher receiver fuel =>
    exact intoResultState_rel (fun x y => x.PositionInvariant → y.PositionInvariant)
      (fun x => id) nib _
      (fun res hres => readConsecutiveCharactersNotMatchingInto_rel utf8RuneSliceNibblerOps
        (fun x y => x.PositionInvariant → y.PositionInvariant)
        (fun x => id) (fun _ _ _ hab hbc hx => hbc (hab hx))
        (fun s => utf8RuneSliceReadCharacter_inv s) (fun s => utf8RuneSliceUnreadCharacter_inv s)
        matcher fuel nib receiver 0 res hres) h

theorem utf8RuneSliceRunOps_inv (ops : List UTF8RuneSliceOp) :
    ∀ (nib : UTF8RuneSliceNibbler), nib.PositionInvariant → (nib.runOps ops).PositionInvariant := by
  induction ops with
  | nil => intro nib h; exact h
  | cons op ops ih =>
    intro nib h
    show ((nib.applyOp op).runOps ops).PositionInvariant
    exact ih _ (utf8RuneSliceApplyOp_inv nib op h)

/-- C3: for every UTF8Nibbler (any cursor exposing the read/unread
interface) and every matching predicate, the shared helper
`readConsecutiveCharactersMatching` (1) returns the accumulated run with
no error when the stream ends after at least one matching character was
accumulated, and (2) returns `io.EOF` when the cursor is already at end
of stream before any character is read. -/
theorem C3_eof_absorption_matching (ops : NibblerOps σ) (p : Nat → Bool) :
    (∀ (s s1 : σ) (fuel : Nat), ops.readUnit s = (Except.error GoErr.eof, s1) →
      readConsecutiveCharactersMatching ops p (fuel + 1) s []
        = some ([], some GoErr.eof, s1))
    ∧ (∀ (cs : List Nat) (s t t1 : σ) (fuel : Nat),
      ReadsUnits ops s cs t → (∀ c ∈ cs, p c = true) → cs ≠ [] →
      ops.readUnit t = (Except.error GoErr.eof, t1) →
      readConsecutiveCharactersMatching ops p (cs.length + (fuel + 1)) s []
        = some (cs, none, t1)) := by
  constructor
  · intro s s1 fuel herr
    simp only [readConsecutiveCharactersMatching, herr]
    simp
  · intro cs s t t1 fuel hread hmatch hne herr
    rw [readConsecutiveCharactersMatching_progress ops p cs t (fuel + 1) s [] hread hmatch]
    simp only [List.nil_append]
    simp only [readConsecutiveCharactersMatching, herr]
    rw [if_pos trivial, if_neg (by simp [hne])]

/-- C3 witness: the run over the fixed-text cursor with backing "ab" and
an always-true matcher ends at the stream end after two characters and
returns them with no error; on the empty backing the same call returns
`io.EOF` at once. -/
theorem C3_eof_absorption_matching_witness :
    readConsecutiveCharactersMatching utf8StringNibblerOps (fun c => c < 0xC8) (2 + (0 + 1)) ⟨[97, 98], 0⟩ []
      = some ([97, 98], none, ⟨[97, 98], 2⟩)
    ∧ readConsecutiveCharactersMatching utf8StringNibblerOps (fun c => c < 0xC8) (0 + 1) ⟨[], 0⟩ []
      = some ([], some GoErr.eof, ⟨[], 0⟩) := by
  constructor
  · exact (C3_eof_absorption_matching utf8StringNibblerOps (fun c => c < 0xC8)).2
      [97, 98] ⟨[97, 98], 0⟩ ⟨[97, 98], 2⟩ ⟨[97, 98], 2⟩ 0
      ⟨⟨[97, 98], 1⟩, by rfl, ⟨[97, 98], 2⟩, by rfl, rfl⟩
      (by decide) (by decide) (by rfl)
  · exact (C3_eof_absorption_matching utf8StringNibblerOps (fun c => c < 0xC8)).1
      ⟨[], 0⟩ ⟨[], 0⟩ 0 (by rfl)

/-- C9: for every UTF8Nibbler and predicate, when the underlying
`ReadCharacter` fails with an error other than `io.EOF` after zero or
more accumulated non-matching characters,
`readConsecutiveCharactersNotMatching` returns the partial run together
with a nil error — the non-EOF error is discarded. -/
theorem C9_notmatching_swallows_nonEOF_errors (ops : NibblerOps σ) (p : Nat → Bool)
    (cs : List Nat) (s t t1 : σ) (e : GoErr) (fuel : Nat)
    (hread : ReadsUnits ops s cs t) (hcs : ∀ c ∈ cs, p c = false)
    (herr : ops.readUnit t = (Except.error e, t1)) (hne : e ≠ GoErr.eof) :
    readConsecutiveCharactersNotMatching ops p (cs.length + (fuel + 1)) s []
      = some (cs, none, t1) := by
  rw [readConsecutiveCharactersNotMatching_progress ops p cs t (fuel + 1) s [] hread hcs]
  simp only [List.nil_append]
  simp only [readConsecutiveCharactersNotMatching, herr]
  rw [if_neg (by simp [hne])]

/-- C9 witness: over the fixed-text cursor with backing bytes
`[0x61, 0x80]`, one non-matching character is read and the next read
fails with the invalid-encoding error, which the scan discards. -/
theorem C9_notmatching_swallows_nonEOF_errors_witness :
    readConsecutiveCharactersNotMatching utf8StringNibblerOps (fun c => c = 0x20) (1 + (0 + 1)) ⟨[97, 0x80], 0⟩ []
      = some ([97], none, ⟨[97, 0x80], 1⟩) := by
  exact C9_notmatching_swallows_nonEOF_errors utf8StringNibblerOps (fun c => c = 0x20)
    [97] ⟨[97, 0x80], 0⟩ ⟨[97, 0x80], 1⟩ ⟨[97, 0x80], 1⟩ invalidUTF8Error 0
    ⟨⟨[97, 0x80], 1⟩, by rfl, rfl⟩ (by decide) (by rfl) (by decide)

/-- C10: for every UTF8Nibbler, predicate, and receiver of positive
capacity, a non-EOF failure of the underlying read mid-scan makes both
into-variant scans return the count `-1` together with that error, while
the characters already copied remain in the receiver. -/
theorem C10_into_nonEOF_error_returns_minus_one (ops : NibblerOps σ) (p : Nat → Bool) :
    (∀ (cs : List Nat) (s t t1 : σ) (e : GoErr) (fuel : Nat) (receiver : List Nat),
      ReadsUnits ops s cs t → (∀ c ∈ cs, p c = true) →
      ops.readUnit t = (Except.error e, t1) → e ≠ GoErr.eof →
      cs.length < receiver.length →
      readConsecutiveCharactersMatchingInto ops p (cs.length + (fuel + 1)) s receiver 0
        = some (-1, some e, cs ++ receiver.drop cs.length, t1))
    ∧ (∀ (cs : List Nat) (s t t1 : σ) (e : GoErr) (fuel : Nat) (receiver : List Nat),
      ReadsUnits ops s cs t → (∀ c ∈ cs, p c = false) →
      ops.readUnit t = (Except.error e, t1) → e ≠ GoErr.eof →
      cs.length < receiver.length →
      readConsecutiveCharactersNotMatchingInto ops p (cs.length + (fuel + 1)) s receiver 0
        = some (-1, some e, cs ++ receiver.drop cs.length, t1)) := by
  constructor
  · intro cs s t t1 e fuel receiver hread hcs herr hne hcap
    rw [readConsecutiveCharactersMatchingInto_progress ops p cs t (fuel + 1) s receiver 0 hread hcs
      (by omega)]
    rw [listOverwrite_zero cs receiver (by omega)]
    have hlen : cs.length < (cs ++ receiver.drop cs.length).length := by
      simp only [List.length_append, List.length_drop]
      omega
    simp only [readConsecutiveCharactersMatchingInto, Nat.zero_add, if_pos hlen, herr]
    rw [if_neg (by simp [hne])]
  · intro cs s t t1 e fuel receiver hread hcs herr hne hcap
    rw [readConsecutiveCharactersNotMatchingInto_progress ops p cs t (fuel + 1) s receiver 0 hread hcs
      (by omega)]
    rw [listOverwrite_zero cs receiver (by omega)]
    have hlen : cs.length < (cs ++ receiver.drop cs.length).length := by
      simp only [List.length_append, List.length_drop]
      omega
    simp only [readConsecutiveCharactersNotMatchingInto, Nat.zero_add, if_pos hlen, herr]
    rw [if_neg (by simp [hne])]

/-- C10 witness: over the fixed-text cursor backed by `[0x61, 0x80]`,
with a receiver of capacity two, the matching into-scan copies the one
matching character and then fails with the invalid-encoding error,
returning `-1` with that error; the not-matching into-scan behaves the
same with the complementary predicate. -/
theorem C10_into_nonEOF_error_returns_minus_one_witness :
    readConsecutiveCharactersMatchingInto utf8StringNibblerOps (fun c => c < 0xC8) (1 + (0 + 1)) ⟨[97, 0x80], 0⟩ [0, 0] 0
      = some (-1, some invalidUTF8Error, [97, 0], ⟨[97, 0x80], 1⟩)
    ∧ readConsecutiveCharactersNotMatchingInto utf8StringNibblerOps (fun c => c = 0x20) (1 + (0 + 1)) ⟨[97, 0x80], 0⟩ [0, 0] 0
      = some (-1, some invalidUTF8Error, [97, 0], ⟨[97, 0x80], 1⟩) := by
  constructor
  · exact (C10_into_nonEOF_error_returns_minus_one utf8StringNibblerOps (fun c => c < 0xC8)).1
      [97] ⟨[97, 0x80], 0⟩ ⟨[97, 0x80], 1⟩ ⟨[97, 0x80], 1⟩ invalidUTF8Error 0 [0, 0]
      ⟨⟨[97, 0x80], 1⟩, by rfl, rfl⟩ (by decide) (by rfl) (by decide) (by decide)
  · exact (C10_into_nonEOF_error_returns_minus_one utf8StringNibblerOps (fun c => c = 0x20)).2
      [97] ⟨[97, 0x80], 0⟩ ⟨[97, 0x80], 1⟩ ⟨[97, 0x80], 1⟩ invalidUTF8Error 0 [0, 0]
      ⟨⟨[97, 0x80], 1⟩, by rfl, rfl⟩ (by decide) (by rfl) (by decide) (by decide)

/-- C6: every operation of every cursor preserves the position invariant:
for the fixed backings (byte slice, UTF-8 string, rune slice) the
position stays between `0` and the length of the backing store under any
sequence of read, unread, peek, and run-consuming operations; for the
stream-backed cursor the position stays at most the length of the
internal buffer, and that buffer only ever grows by appending. -/
theorem C6_position_invariant :
    (∀ (nib : ByteSliceNibbler) (ops : List ByteSliceOp),
      nib.PositionInvariant → (nib.runOps ops).PositionInvariant)
    ∧ (∀ (nib : UTF8StringNibbler) (ops : List UTF8StringOp),
      nib.PositionInvariant → (nib.runOps ops).PositionInvariant)
    ∧ (∀ (nib : UTF8RuneSliceNibbler) (ops : List UTF8RuneSliceOp),
      nib.PositionInvariant → (nib.runOps ops).PositionInvariant)
    ∧ (∀ (nib : ByteReaderNibbler) (ops : List ByteReaderOp),
      nib.PositionInvariant →
        (nib.runOps ops).PositionInvariant
        ∧ ByteReaderNibbler.BufferGrows nib (nib.runOps ops)) :=
  ⟨fun nib ops h => byteSliceRunOps_inv ops nib h,
   fun nib ops h => utf8StringRunOps_inv ops nib h,
   fun nib ops h => utf8RuneSliceRunOps_inv ops nib h,
   fun nib ops h =>
     ⟨(ByteReaderNibbler.runOps_step ops nib).1 h, (ByteReaderNibbler.runOps_step ops nib).2⟩⟩

/-- C6 witness: concrete operation sequences on all four cursors keep the
position invariant, and the reader-backed cursor's buffer grows by an
appended extension. -/
theorem C6_position_invariant_witness :
    ((⟨[1, 2], 0, none⟩ : ByteSliceNibbler).PositionInvariant
      ∧ ((⟨[1, 2], 0, none⟩ : ByteSliceNibbler).runOps
          [ByteSliceOp.readByte, ByteSliceOp.unreadByte, ByteSliceOp.peekAtNextByte]).PositionInvariant)
    ∧ ((⟨[97, 98], 0⟩ : UTF8StringNibbler).PositionInvariant
      ∧ ((⟨[97, 98], 0⟩ : UTF8StringNibbler).runOps
          [UTF8StringOp.readCharacter, UTF8StringOp.readCharacter, UTF8StringOp.unreadCharacter]).PositionInvariant)
    ∧ ((⟨[7, 8], -1⟩ : UTF8RuneSliceNibbler).PositionInvariant
      ∧ ((⟨[7, 8], -1⟩ : UTF8RuneSliceNibbler).runOps
          [UTF8RuneSliceOp.readCharacter, UTF8RuneSliceOp.unreadCharacter]).PositionInvariant)
    ∧ ((⟨[ReadEvent.bytes [5, 6], ReadEvent.eof], [], 0, none⟩ : ByteReaderNibbler).PositionInvariant
      ∧ ((⟨[ReadEvent.bytes [5, 6], ReadEvent.eof], [], 0, none⟩ : ByteReaderNibbler).runOps
          [ByteReaderOp.readByte, ByteReaderOp.readByte, ByteReaderOp.unreadByte]).PositionInvariant
      ∧ ByteReaderNibbler.BufferGrows ⟨[ReadEvent.bytes [5, 6], ReadEvent.eof], [], 0, none⟩
          ((⟨[ReadEvent.bytes [5, 6], ReadEvent.eof], [], 0, none⟩ : ByteReaderNibbler).runOps
            [ByteReaderOp.readByte, ByteReaderOp.readByte, ByteReaderOp.unreadByte])) := by
  refine ⟨⟨by decide, C6_position_invariant.1 _ _ (by decide)⟩,
    ⟨by decide, C6_position_invariant.2.1 _ _ (by decide)⟩,
    ⟨by decide, C6_position_invariant.2.2.1 _ _ (by decide)⟩,
    ⟨by decide, (C6_position_invariant.2.2.2 _ _ (by decide)).1, (C6_position_invariant.2.2.2 _ _ (by decide)).2⟩⟩

/-- C8: when a refill triggered by `ReadByte` or `PeekAtNextByte` of the
stream-backed byte cursor hits a source `Read` that produces zero bytes
with no end-of-data signal and no fault, the operation fails with the
protocol-violation error, which is distinct from `io.EOF`, instead of
looping or reporting success. -/
theorem C8_empty_read_protocol_violation (nib : ByteReaderNibbler)
    (hexhausted : nib.internalBuffer.length ≤ nib.indexOfNextReadByteInBuffer)
    (hempty : nib.backingReaderEvents.head? = some (ReadEvent.bytes [])) :
    nib.ReadByte = (Except.error emptyReadError,
      { nib with backingReaderEvents := nib.backingReaderEvents.tail })
    ∧ nib.PeekAtNextByte = (Except.error emptyReadError,
      { nib with backingReaderEvents := nib.backingReaderEvents.tail })
    ∧ emptyReadError ≠ GoErr.eof := by
  match hev : nib.backingReaderEvents with
  | [] => rw [hev] at hempty; simp at hempty
  | ev :: rest =>
    rw [hev] at hempty
    simp only [List.head?_cons, Option.some.injEq] at hempty
    subst hempty
    have hrefill : nib.readFromStreamAndAppendToInternalBuffer
        = (some emptyReadError, { nib with backingReaderEvents := rest }) := by
      unfold ByteReaderNibbler.readFromStreamAndAppendToInternalBuffer
      rw [hev]
      dsimp only
      rw [if_neg (by simp)]
    refine ⟨?_, ?_, by decide⟩
    · unfold ByteReaderNibbler.ReadByte
      rw [if_pos hexhausted, hrefill]
      rfl
    · unfold ByteReaderNibbler.PeekAtNextByte
      rw [if_pos hexhausted, hrefill]
      rfl

/-- C8 witness: a fresh reader-backed cursor whose source's first `Read`
returns zero bytes fails with the protocol-violation error on both
`ReadByte` and `PeekAtNextByte`. -/
theorem C8_empty_read_protocol_violation_witness :
    ((⟨[ReadEvent.bytes [], ReadEvent.eof], [], 0, none⟩ : ByteReaderNibbler).internalBuffer.length ≤ 0)
    ∧ (⟨[ReadEvent.bytes [], ReadEvent.eof], [], 0, none⟩ : ByteReaderNibbler).ReadByte
      = (Except.error emptyReadError, ⟨[ReadEvent.eof], [], 0, none⟩)
    ∧ (⟨[ReadEvent.bytes [], ReadEvent.eof], [], 0, none⟩ : ByteReaderNibbler).PeekAtNextByte
      = (Except.error emptyReadError, ⟨[ReadEvent.eof], [], 0, none⟩) := by
  have h := C8_empty_read_protocol_violation ⟨[ReadEvent.bytes [], ReadEvent.eof], [], 0, none⟩
    (by decide) (by rfl)
  exact ⟨by decide, h.1, h.2.1⟩

/-- C1 counterexample: over the byte-slice cursor backed by the bytes
"12" with the attached named set "set-12" = {'1','2'}, the set-matching
read consumes both qualifying bytes, the scan ends because the stream
ends, and the result carries the accumulated run together with the
`io.EOF` error — not the error-free result the claim asserts.  This is
the behavior the repository's own tests expect. -/
theorem C1_counterexample :
    ByteSliceNibbler.ReadNextBytesMatchingSet
      ⟨[49, 50], 0, some ⟨[("set-12", [49, 50])]⟩⟩ "set-12" 3
      = some ([49, 50], some GoErr.eof, ⟨[49, 50], 2, some ⟨[("set-12", [49, 50])]⟩⟩) := by
  rfl

/-- C1 amended: for every byte cursor with a character-sets map attached
that contains the named set, if the set-matching (resp. not-matching)
read consumes at least one qualifying byte and the scan terminates
because the stream ends, the accumulated run is returned together with
the `io.EOF` error (the byte cursors do not absorb the EOF). -/
theorem C1_amended_run_returned_with_eof (ops : NibblerOps σ)
    (maybeSets : Option NamedCharacterSetsMap) (setName : String)
    (sets : NamedCharacterSetsMap) (setMap : List Nat)
    (hsets : maybeSets = some sets)
    (hret : sets.retrieveNamedCharacterSet setName = some setMap) :
    (∀ (run : List Nat) (s t t1 : σ) (fuel : Nat),
      ReadsUnits ops s run t → (∀ b ∈ run, setMap.contains b = true) → run ≠ [] →
      ops.readUnit t = (Except.error GoErr.eof, t1) →
      readNextBytesMatchingSet ops maybeSets setName (run.length + (fuel + 1)) s
        = some (run, some GoErr.eof, t1))
    ∧ (∀ (run : List Nat) (s t t1 : σ) (fuel : Nat),
      ReadsUnits ops s run t → (∀ b ∈ run, setMap.contains b = false) → run ≠ [] →
      ops.readUnit t = (Except.error GoErr.eof, t1) →
      readNextBytesNotMatchingSet ops maybeSets setName (run.length + (fuel + 1)) s
        = some (run, some GoErr.eof, t1)) := by
  subst hsets
  constructor
  · intro run s t t1 fuel hread hmem hne herr
    unfold readNextBytesMatchingSet
    simp only [hret]
    rw [readNextBytesMatchingSetLoop_progress ops setMap run t (fuel + 1) s [] hread hmem]
    simp only [List.nil_append]
    simp only [readNextBytesMatchingSetLoop, herr]
  · intro run s t t1 fuel hread hmem hne herr
    unfold readNextBytesNotMatchingSet
    simp only [hret]
    rw [readNextBytesNotMatchingSetLoop_progress ops setMap run t (fuel + 1) s [] hread hmem]
    simp only [List.nil_append]
    simp only [readNextBytesNotMatchingSetLoop, herr]

/-- C1 amended witness: the byte-slice cursor backed by "12" with the
set "set-12" attached returns the run together with `io.EOF`; backed by
"ab" with the same set, the not-matching read does the same. -/
theorem C1_amended_run_returned_with_eof_witness :
    readNextBytesMatchingSet byteSliceNibblerOps (some ⟨[("set-12", [49, 50])]⟩) "set-12" (2 + (0 + 1))
      ⟨[49, 50], 0, some ⟨[("set-12", [49, 50])]⟩⟩
      = some ([49, 50], some GoErr.eof, ⟨[49, 50], 2, some ⟨[("set-12", [49, 50])]⟩⟩)
    ∧ readNextBytesNotMatchingSet byteSliceNibblerOps (some ⟨[("set-12", [49, 50])]⟩) "set-12" (2 + (0 + 1))
      ⟨[97, 98], 0, some ⟨[("set-12", [49, 50])]⟩⟩
      = some ([97, 98], some GoErr.eof, ⟨[97, 98], 2, some ⟨[("set-12", [49, 50])]⟩⟩) := by
  constructor
  · exact (C1_amended_run_returned_with_eof byteSliceNibblerOps
      (some ⟨[("set-12", [49, 50])]⟩) "set-12" ⟨[("set-12", [49, 50])]⟩ [49, 50] rfl (by rfl)).1
      [49, 50] ⟨[49, 50], 0, some ⟨[("set-12", [49, 50])]⟩⟩
      ⟨[49, 50], 2, some ⟨[("set-12", [49, 50])]⟩⟩ ⟨[49, 50], 2, some ⟨[("set-12", [49, 50])]⟩⟩ 0
      ⟨⟨[49, 50], 1, some ⟨[("set-12", [49, 50])]⟩⟩, by rfl,
        ⟨[49, 50], 2, some ⟨[("set-12", [49, 50])]⟩⟩, by rfl, rfl⟩
      (by decide) (by decide) (by rfl)
  · exact (C1_amended_run_returned_with_eof byteSliceNibblerOps
      (some ⟨[("set-12", [49, 50])]⟩) "set-12" ⟨[("set-12", [49, 50])]⟩ [49, 50] rfl (by rfl)).2
      [97, 98] ⟨[97, 98], 0, some ⟨[("set-12", [49, 50])]⟩⟩
      ⟨[97, 98], 2, some ⟨[("set-12", [49, 50])]⟩⟩ ⟨[97, 98], 2, some ⟨[("set-12", [49, 50])]⟩⟩ 0
      ⟨⟨[97, 98], 1, some ⟨[("set-12", [49, 50])]⟩⟩, by rfl,
        ⟨[97, 98], 2, some ⟨[("set-12", [49, 50])]⟩⟩, by rfl, rfl⟩
      (by decide) (by decide) (by rfl)

/-- C4 counterexample: the bytes `EF BF BD` form a valid UTF-8 encoding
(of U+FFFD, the replacement character), yet `ReadCharacter` on the fixed
text cursor reports the invalid-encoding error and does not advance,
because Go's `DecodeRuneInString` returns `utf8.RuneError` both for
malformed input and for a genuine U+FFFD, and the source tests the
decoded rune against `utf8.RuneError`. -/
theorem C4_counterexample :
    utf8DecodeFirst ((⟨[0xEF, 0xBF, 0xBD], 0⟩ : UTF8StringNibbler).backingString.drop 0)
      = Utf8Dec.ok 0xFFFD 3
    ∧ UTF8StringNibbler.ReadCharacter ⟨[0xEF, 0xBF, 0xBD], 0⟩
      = (Except.error invalidUTF8Error, ⟨[0xEF, 0xBF, 0xBD], 0⟩) := by
  exact ⟨by decide, by rfl⟩

/-- C4 amended: `ReadCharacter` of the fixed text cursor decodes the
bytes at the position with standard UTF-8 decoding and (1) returns the
decoded code point and advances by its width whenever the bytes form a
valid encoding of any code point other than U+FFFD; (2) fails with the
invalid-encoding error — distinct from `EndOfStream` — without advancing
when the byte sequence at the cursor is malformed or truncated; and
(3) also reports a valid encoding of U+FFFD itself as invalid, again
without advancing. -/
theorem C4_amended_read_character (bs : List Nat) (idx cp w : Nat) :
    (utf8DecodeFirst (bs.drop idx) = Utf8Dec.ok cp w → cp ≠ 0xFFFD → idx < bs.length →
      UTF8StringNibbler.ReadCharacter ⟨bs, idx⟩ = (Except.ok cp, ⟨bs, idx + w⟩))
    ∧ (idx < bs.length →
      (utf8DecodeFirst (bs.drop idx) = Utf8Dec.invalid ∨ utf8DecodeFirst (bs.drop idx) = Utf8Dec.incomplete) →
      UTF8StringNibbler.ReadCharacter ⟨bs, idx⟩ = (Except.error invalidUTF8Error, ⟨bs, idx⟩)
        ∧ invalidUTF8Error ≠ GoErr.eof)
    ∧ (idx < bs.length → utf8DecodeFirst (bs.drop idx) = Utf8Dec.ok 0xFFFD w →
      UTF8StringNibbler.ReadCharacter ⟨bs, idx⟩ = (Except.error invalidUTF8Error, ⟨bs, idx⟩)) := by
  refine ⟨?_, ?_, ?_⟩
  · intro hdec hcp hidx
    unfold UTF8StringNibbler.ReadCharacter
    rw [if_neg (by simp only; omega)]
    simp only [hdec]
    rw [if_neg hcp]
  · intro hidx hdec
    refine ⟨?_, by decide⟩
    unfold UTF8StringNibbler.ReadCharacter
    rw [if_neg (by simp only; omega)]
    rcases hdec with hdec | hdec <;> simp only [hdec]
  · intro hidx hdec
    unfold UTF8StringNibbler.ReadCharacter
    rw [if_neg (by simp only; omega)]
    simp only [hdec]
    rw [if_pos trivial]

/-- C4 amended witness: at "é" (bytes `C3 A9`) the cursor returns U+00E9
and advances by two; at the malformed byte `80` it reports the
invalid-encoding error and stays put; at a literal U+FFFD encoding it
also reports the invalid-encoding error. -/
theorem C4_amended_read_character_witness :
    UTF8StringNibbler.ReadCharacter ⟨[0xC3, 0xA9], 0⟩ = (Except.ok 0xE9, ⟨[0xC3, 0xA9], 0 + 2⟩)
    ∧ (UTF8StringNibbler.ReadCharacter ⟨[0x80], 0⟩ = (Except.error invalidUTF8Error, ⟨[0x80], 0⟩)
        ∧ invalidUTF8Error ≠ GoErr.eof)
    ∧ UTF8StringNibbler.ReadCharacter ⟨[0xEF, 0xBF, 0xBD], 0⟩
        = (Except.error invalidUTF8Error, ⟨[0xEF, 0xBF, 0xBD], 0⟩) := by
  refine ⟨?_, ?_, ?_⟩
  · exact (C4_amended_read_character [0xC3, 0xA9] 0 0xE9 2).1 (by decide) (by decide) (by decide)
  · exact (C4_amended_read_character [0x80] 0 0 0).2.1 (by decide) (Or.inl (by decide))
  · exact (C4_amended_read_character [0xEF, 0xBF, 0xBD] 0 0 3).2.2 (by decide) (by decide)

/-- C5 counterexample: a receiver of capacity zero handed to the
into-variant scan over a cursor already at end of stream makes the loop
body never run, so the call returns `(0, no error)` — not the
`(0, EndOfStream)` that the claim's end-of-stream clause asserts for a
stream that is at end before any character is produced. -/
theorem C5_counterexample :
    readConsecutiveCharactersMatchingInto utf8StringNibblerOps (fun _ => true) 1 ⟨[], 0⟩ [] 0
      = some (0, none, [], ⟨[], 0⟩)
    ∧ (UTF8StringNibbler.ReadCharacter ⟨[], 0⟩).1 = Except.error GoErr.eof := by
  exact ⟨by rfl, by rfl⟩

/-- C5 amended: for every UTF8Nibbler, matching predicate, and
caller-supplied fixed-capacity receiver, the into-variant scan fills the
receiver left to right with qualifying characters and (1) stops with
`(capacity, no error)` the moment the receiver is full; (2) stops with
`(count so far, no error)` the moment a non-qualifying character is
encountered, retracting that character; (3) returns `(0, EndOfStream)`
when the stream is already at end before any character is produced,
provided the receiver has positive capacity (a capacity-zero receiver
returns `(0, no error)` without consulting the stream); and (4) returns
`(count, no error)` when at least one character was filled before
end-of-stream, where the count may be less than the capacity. -/
theorem C5_amended_into_scan (ops : NibblerOps σ) (p : Nat → Bool) :
    (∀ (cs : List Nat) (s t : σ) (fuel : Nat) (receiver : List Nat),
      ReadsUnits ops s cs t → (∀ c ∈ cs, p c = true) → cs.length = receiver.length →
      readConsecutiveCharactersMatchingInto ops p (cs.length + (fuel + 1)) s receiver 0
        = some ((receiver.length : Int), none, cs, t))
    ∧ (∀ (cs : List Nat) (c : Nat) (s t t1 : σ) (fuel : Nat) (receiver : List Nat),
      ReadsUnits ops s cs t → (∀ x ∈ cs, p x = true) →
      ops.readUnit t = (Except.ok c, t1) → p c = false → cs.length < receiver.length →
      readConsecutiveCharactersMatchingInto ops p (cs.length + (fuel + 1)) s receiver 0
        = some ((cs.length : Int), none, cs ++ receiver.drop cs.length, (ops.unreadUnit t1).2))
    ∧ (∀ (s s1 : σ) (fuel : Nat) (receiver : List Nat),
      receiver ≠ [] → ops.readUnit s = (Except.error GoErr.eof, s1) →
      readConsecutiveCharactersMatchingInto ops p (fuel + 1) s receiver 0
        = some (0, some GoErr.eof, receiver, s1))
    ∧ (∀ (cs : List Nat) (s t t1 : σ) (fuel : Nat) (receiver : List Nat),
      ReadsUnits ops s cs t → (∀ c ∈ cs, p c = true) → cs ≠ [] →
      ops.readUnit t = (Except.error GoErr.eof, t1) → cs.length < receiver.length →
      readConsecutiveCharactersMatchingInto ops p (cs.length + (fuel + 1)) s receiver 0
        = some ((cs.length : Int), none, cs ++ receiver.drop cs.length, t1)) := by
  refine ⟨?_, ?_, ?_, ?_⟩
  · intro cs s t fuel receiver hread hcs hlen
    rw [readConsecutiveCharactersMatchingInto_progress ops p cs t (fuel + 1) s receiver 0 hread hcs
      (by omega)]
    rw [listOverwrite_zero cs receiver (by omega)]
    have hdrop : receiver.drop cs.length = [] := by
      rw [hlen, List.drop_length]
    rw [hdrop, List.append_nil]
    simp only [readConsecutiveCharactersMatchingInto, Nat.zero_add]
    rw [if_neg (by omega)]
    rw [hlen]
  · intro cs c s t t1 fuel receiver hread hcs hrd hpc hcap
    rw [readConsecutiveCharactersMatchingInto_progress ops p cs t (fuel + 1) s receiver 0 hread hcs
      (by omega)]
    rw [listOverwrite_zero cs receiver (by omega)]
    have hlen : cs.length < (cs ++ receiver.drop cs.length).length := by
      simp only [List.length_append, List.length_drop]
      omega
    simp only [readConsecutiveCharactersMatchingInto, Nat.zero_add, if_pos hlen, hrd, hpc,
      Bool.false_eq_true, if_false]
  · intro s s1 fuel receiver hrec herr
    have hlen : 0 < receiver.length := by
      cases receiver with
      | nil => exact absurd rfl hrec
      | cons r rs => simp
    simp only [readConsecutiveCharactersMatchingInto, if_pos hlen, herr]
    rw [if_pos trivial, if_pos trivial]
  · intro cs s t t1 fuel receiver hread hcs hne herr hcap
    rw [readConsecutiveCharactersMatchingInto_progress ops p cs t (fuel + 1) s receiver 0 hread hcs
      (by omega)]
    rw [listOverwrite_zero cs receiver (by omega)]
    have hlen : cs.length < (cs ++ receiver.drop cs.length).length := by
      simp only [List.length_append, List.length_drop]
      omega
    simp only [readConsecutiveCharactersMatchingInto, Nat.zero_add, if_pos hlen, herr]
    rw [if_pos trivial, if_neg (by simp [hne])]

/-- C5 amended witness: over the fixed-text cursor backed by "ab c":
a capacity-two receiver fills completely; a capacity-four receiver stops
at the space, which is retracted; at end of stream a positive-capacity
receiver reports `(0, EndOfStream)`; backed by "ab" a capacity-four
receiver reports `(2, no error)` after the stream ends. -/
theorem C5_amended_into_scan_witness :
    readConsecutiveCharactersMatchingInto utf8StringNibblerOps (fun c => decide (c ≠ 0x20)) (2 + (0 + 1)) ⟨[97, 98, 32, 99], 0⟩ [0, 0] 0
      = some (2, none, [97, 98], ⟨[97, 98, 32, 99], 2⟩)
    ∧ readConsecutiveCharactersMatchingInto utf8StringNibblerOps (fun c => decide (c ≠ 0x20)) (2 + (0 + 1)) ⟨[97, 98, 32, 99], 0⟩ [0, 0, 0, 0] 0
      = some (2, none, [97, 98, 0, 0], ⟨[97, 98, 32, 99], 2⟩)
    ∧ readConsecutiveCharactersMatchingInto utf8StringNibblerOps (fun c => decide (c ≠ 0x20)) (0 + 1) ⟨[97], 1⟩ [0, 0] 0
      = some (0, some GoErr.eof, [0, 0], ⟨[97], 1⟩)
    ∧ readConsecutiveCharactersMatchingInto utf8StringNibblerOps (fun c => decide (c ≠ 0x20)) (2 + (0 + 1)) ⟨[97, 98], 0⟩ [0, 0, 0, 0] 0
      = some (2, none, [97, 98, 0, 0], ⟨[97, 98], 2⟩) := by
  refine ⟨?_, ?_, ?_, ?_⟩
  · exact (C5_amended_into_scan utf8StringNibblerOps (fun c => decide (c ≠ 0x20))).1
      [97, 98] ⟨[97, 98, 32, 99], 0⟩ ⟨[97, 98, 32, 99], 2⟩ 0 [0, 0]
      ⟨⟨[97, 98, 32, 99], 1⟩, by rfl, ⟨[97, 98, 32, 99], 2⟩, by rfl, rfl⟩
      (by decide) (by decide)
  · have h := (C5_amended_into_scan utf8StringNibblerOps (fun c => decide (c ≠ 0x20))).2.1
      [97, 98] 32 ⟨[97, 98, 32, 99], 0⟩ ⟨[97, 98, 32, 99], 2⟩ ⟨[97, 98, 32, 99], 3⟩ 0 [0, 0, 0, 0]
      ⟨⟨[97, 98, 32, 99], 1⟩, by rfl, ⟨[97, 98, 32, 99], 2⟩, by rfl, rfl⟩
      (by decide) (by rfl) (by decide) (by decide)
    exact h
  · exact (C5_amended_into_scan utf8StringNibblerOps (fun c => decide (c ≠ 0x20))).2.2.1
      ⟨[97], 1⟩ ⟨[97], 1⟩ 0 [0, 0] (by decide) (by rfl)
  · exact (C5_amended_into_scan utf8StringNibblerOps (fun c => decide (c ≠ 0x20))).2.2.2
      [97, 98] ⟨[97, 98], 0⟩ ⟨[97, 98], 2⟩ ⟨[97, 98], 2⟩ 0 [0, 0, 0, 0]
      ⟨⟨[97, 98], 1⟩, by rfl, ⟨[97, 98], 2⟩, by rfl, rfl⟩
      (by decide) (by decide) (by rfl) (by decide)

theorem readCharacterAux_refill (fuel : Nat) (nib : UTF8ReaderNibbler)
    (chunk : List Nat) (rest : List (List Nat))
    (hinc : utf8DecodeFirst (nib.internalBuffer.drop nib.positionOfNextRead) = Utf8Dec.incomplete)
    (hchunks : nib.sourceChunks = chunk :: rest) :
    UTF8ReaderNibbler.readCharacterAux (fuel + 1) nib
      = UTF8ReaderNibbler.readCharacterAux fuel
          ⟨rest, nib.internalBuffer ++ chunk, nib.positionOfNextRead⟩ := by
  conv_lhs => unfold UTF8ReaderNibbler.readCharacterAux
  rw [hinc]
  dsimp only
  rw [hchunks]

theorem readCharacterAux_decodes (fuel : Nat) (nib : UTF8ReaderNibbler) (cp w : Nat)
    (hok : utf8DecodeFirst (nib.internalBuffer.drop nib.positionOfNextRead) = Utf8Dec.ok cp w) :
    UTF8ReaderNibbler.readCharacterAux fuel nib
      = (Except.ok cp, { nib with positionOfNextRead := nib.positionOfNextRead + w }) := by
  unfold UTF8ReaderNibbler.readCharacterAux
  rw [hok]

/-- C2: for the stream-backed code-point cursor, any multi-byte code
point whose encoding bytes arrive split across two separate refills of
the external byte source is decoded by `ReadCharacter` into that single
correct code point — never an InvalidEncoding failure caused by the
split, and never two partial results: the position advances over the
whole encoding at once. -/
theorem C2_streaming_split_codepoint (cp k : Nat) (buf post : List Nat) (rest : List (List Nat))
    (hv : ValidScalar cp) (hmb : 0x80 ≤ cp) (hk0 : 0 < k) (hkw : k < (utf8Encode cp).length) :
    UTF8ReaderNibbler.ReadCharacter
      ⟨(utf8Encode cp).take k :: ((utf8Encode cp).drop k ++ post) :: rest, buf, buf.length⟩
      = (Except.ok cp,
          ⟨rest, buf ++ (utf8Encode cp ++ post), buf.length + (utf8Encode cp).length⟩) := by
  unfold UTF8ReaderNibbler.ReadCharacter
  rw [readCharacterAux_refill 4 _ ((utf8Encode cp).take k) (((utf8Encode cp).drop k ++ post) :: rest)
    (by simp only [List.drop_length]; rfl) rfl]
  rw [readCharacterAux_refill 3 _ ((utf8Encode cp).drop k ++ post) rest
    (by
      simp only [List.drop_left]
      exact utf8DecodeFirst_encode_take cp k hv hk0 hkw)
    rfl]
  have hbuf : ((buf ++ (utf8Encode cp).take k) ++ ((utf8Encode cp).drop k ++ post))
      = buf ++ (utf8Encode cp ++ post) := by
    rw [List.append_assoc, ← List.append_assoc ((utf8Encode cp).take k),
      List.take_append_drop]
  rw [readCharacterAux_decodes 3 _ cp (utf8Encode cp).length
    (by
      simp only
      rw [hbuf, List.drop_left]
      exact utf8DecodeFirst_encode cp hv post)]
  simp only [hbuf]

/-- C2 witness: the three-byte encoding of U+2200 split as `E2` then
`88 80` across two refills of a fresh cursor decodes to the single code
point U+2200, with the position covering the whole encoding. -/
theorem C2_streaming_split_codepoint_witness :
    ValidScalar 0x2200
    ∧ UTF8ReaderNibbler.ReadCharacter ⟨[[0xE2], [0x88, 0x80]], [], 0⟩
      = (Except.ok 0x2200, ⟨[], [0xE2, 0x88, 0x80], 3⟩) := by
  constructor
  · decide
  · have h := C2_streaming_split_codepoint 0x2200 1 [] [] []
      (by decide) (by decide) (by decide) (by decide)
    exact h

/-- C7: on every cursor, in every reachable state in which a read
succeeds, an unread performed immediately afterwards succeeds and
restores the state that held before the read, so the next read returns
the same unit again.  For the fixed backings the whole cursor state is
restored; for the stream-backed cursor the position is restored (the
internal buffer may have grown during the read's refill) and the next
read returns the same byte. -/
theorem C7_unread_inverts_read :
    (∀ (nib : ByteSliceNibbler) (b : Nat) (nib1 : ByteSliceNibbler),
      nib.ReadByte = (Except.ok b, nib1) →
      nib1.UnreadByte = (Except.ok (), nib) ∧ nib.ReadByte.1 = Except.ok b)
    ∧ (∀ (nib : UTF8StringNibbler) (cp : Nat) (nib1 : UTF8StringNibbler),
      nib.ReadCharacter = (Except.ok cp, nib1) →
      nib1.UnreadCharacter = (Except.ok (), nib) ∧ nib.ReadCharacter.1 = Except.ok cp)
    ∧ (∀ (nib : UTF8RuneSliceNibbler) (r : Nat) (nib1 : UTF8RuneSliceNibbler),
      nib.PositionInvariant → nib.ReadCharacter = (Except.ok r, nib1) →
      nib1.UnreadCharacter = (Except.ok (), nib) ∧ nib.ReadCharacter.1 = Except.ok r)
    ∧ (∀ (nib : ByteReaderNibbler) (b : Nat) (nib1 : ByteReaderNibbler),
      nib.PositionInvariant → nib.ReadByte = (Except.ok b, nib1) →
      ∃ nib2, nib1.UnreadByte = (Except.ok (), nib2)
        ∧ nib2.indexOfNextReadByteInBuffer = nib.indexOfNextReadByteInBuffer
        ∧ nib2.ReadByte.1 = Except.ok b) := by
  refine ⟨?_, ?_, ?_, ?_⟩
  · intro nib b nib1 h
    refine ⟨?_, by rw [h]⟩
    unfold ByteSliceNibbler.ReadByte at h
    by_cases hc : nib.backingBuffer.length ≤ nib.indexInBufferOfNextReadByte
    · rw [if_pos hc] at h
      exact absurd (congrArg Prod.fst h) (by simp)
    · rw [if_neg hc] at h
      rw [Prod.mk.injEq] at h
      obtain ⟨hb, hnib1⟩ := h
      subst hnib1
      unfold ByteSliceNibbler.UnreadByte
      dsimp only
      rw [if_neg (by omega)]
      simp
  · intro nib cp nib1 h
    refine ⟨?_, by rw [h]⟩
    unfold UTF8StringNibbler.ReadCharacter at h
    by_cases hc : nib.backingString.length ≤ nib.indexInStringOfNextReadByte
    · rw [if_pos hc] at h
      exact absurd (congrArg Prod.fst h) (by simp)
    · rw [if_neg hc] at h
      match hdec : utf8DecodeFirst (nib.backingString.drop nib.indexInStringOfNextReadByte) with
      | Utf8Dec.ok cp2 w =>
        simp only [hdec] at h
        by_cases hf : cp2 = 0xFFFD
        · rw [if_pos hf] at h
          exact absurd (congrArg Prod.fst h) (by simp)
        · rw [if_neg hf] at h
          rw [Prod.mk.injEq] at h
          obtain ⟨hcp, hnib1⟩ := h
          obtain rfl := Except.ok.inj hcp
          subst hnib1
          obtain ⟨hvalid, hw1, hwle, htake, hlen⟩ := utf8DecodeFirst_ok_inv _ _ _ hdec
          unfold UTF8StringNibbler.UnreadCharacter
          dsimp only
          have htk : nib.backingString.take (nib.indexInStringOfNextReadByte + w)
              = nib.backingString.take nib.indexInStringOfNextReadByte ++ utf8Encode cp2 := by
            rw [List.take_add, htake]
          rw [htk, utf8DecodeLast_append_encode _ cp2 hvalid]
          dsimp only
          rw [if_neg hf, hlen]
          simp
      | Utf8Dec.invalid =>
        simp only [hdec] at h
        exact absurd (congrArg Prod.fst h) (by simp)
      | Utf8Dec.incomplete =>
        simp only [hdec] at h
        exact absurd (congrArg Prod.fst h) (by simp)
  · intro nib r nib1 hinv h
    refine ⟨?_, by rw [h]⟩
    unfold UTF8RuneSliceNibbler.PositionInvariant at hinv
    unfold UTF8RuneSliceNibbler.ReadCharacter at h
    by_cases hc : nib.indexOfLastReadRune = (nib.backingSlice.length : Int) - 1
    · rw [if_pos hc] at h
      exact absurd (congrArg Prod.fst h) (by simp)
    · rw [if_neg hc] at h
      rw [Prod.mk.injEq] at h
      obtain ⟨hr, hnib1⟩ := h
      subst hnib1
      unfold UTF8RuneSliceNibbler.UnreadCharacter
      dsimp only
      rw [if_neg (by omega)]
      simp
  · intro nib b nib1 hinv h
    unfold ByteReaderNibbler.PositionInvariant at hinv
    unfold ByteReaderNibbler.ReadByte at h
    by_cases hc : nib.internalBuffer.length ≤ nib.indexOfNextReadByteInBuffer
    · rw [if_pos hc] at h
      obtain ⟨hidx, ext, hbuf, hext⟩ := nib.readFromStream_spec
      match hr : nib.readFromStreamAndAppendToInternalBuffer with
      | (some e, nib2) =>
        simp only [hr] at h
        exact absurd (congrArg Prod.fst h) (by simp)
      | (none, nib2) =>
        simp only [hr] at h
        rw [hr] at hidx hbuf
        have hext1 : 0 < ext.length := hext (by rw [hr])
        dsimp only at hidx hbuf
        rw [Prod.mk.injEq] at h
        obtain ⟨hb, hnib1⟩ := h
        subst hnib1
        refine ⟨nib2, ?_, ?_, ?_⟩
        · unfold ByteReaderNibbler.UnreadByte
          dsimp only
          rw [if_neg (by omega)]
          simp
        · rw [hidx]
        · unfold ByteReaderNibbler.ReadByte
          rw [if_neg (by rw [hidx, hbuf, List.length_append]; omega)]
          dsimp only
          exact hb
    · rw [if_neg hc] at h
      dsimp only at h
      rw [Prod.mk.injEq] at h
      obtain ⟨hb, hnib1⟩ := h
      subst hnib1
      refine ⟨nib, ?_, rfl, ?_⟩
      · unfold ByteReaderNibbler.UnreadByte
        dsimp only
        rw [if_neg (by omega)]
        simp
      · unfold ByteReaderNibbler.ReadByte
        rw [if_neg hc]
        dsimp only
        exact hb

/-- C7 witness: on each cursor a concrete successful read followed by an
unread restores the prior state, and on the stream-backed cursor the
next read returns the same byte. -/
theorem C7_unread_inverts_read_witness :
    ((⟨[7, 8], 1, none⟩ : ByteSliceNibbler).UnreadByte = (Except.ok (), ⟨[7, 8], 0, none⟩)
      ∧ (⟨[7, 8], 0, none⟩ : ByteSliceNibbler).ReadByte.1 = Except.ok 7)
    ∧ ((⟨[0xC3, 0xA9], 2⟩ : UTF8StringNibbler).UnreadCharacter = (Except.ok (), ⟨[0xC3, 0xA9], 0⟩)
      ∧ (⟨[0xC3, 0xA9], 0⟩ : UTF8StringNibbler).ReadCharacter.1 = Except.ok 0xE9)
    ∧ ((⟨[7, 8], 0⟩ : UTF8RuneSliceNibbler).UnreadCharacter = (Except.ok (), ⟨[7, 8], -1⟩)
      ∧ (⟨[7, 8], -1⟩ : UTF8RuneSliceNibbler).ReadCharacter.1 = Except.ok 7)
    ∧ ∃ nib2, (⟨[ReadEvent.eof], [7], 1, none⟩ : ByteReaderNibbler).UnreadByte = (Except.ok (), nib2)
        ∧ nib2.indexOfNextReadByteInBuffer = 0
        ∧ nib2.ReadByte.1 = Except.ok 7 := by
  refine ⟨?_, ?_, ?_, ?_⟩
  · exact C7_unread_inverts_read.1 ⟨[7, 8], 0, none⟩ 7 ⟨[7, 8], 1, none⟩ (by rfl)
  · exact C7_unread_inverts_read.2.1 ⟨[0xC3, 0xA9], 0⟩ 0xE9 ⟨[0xC3, 0xA9], 2⟩ (by rfl)
  · exact C7_unread_inverts_read.2.2.1 ⟨[7, 8], -1⟩ 7 ⟨[7, 8], 0⟩ (by decide) (by rfl)
  · exact C7_unread_inverts_read.2.2.2 ⟨[ReadEvent.eof], [7], 0, none⟩ 7 ⟨[ReadEvent.eof], [7], 1, none⟩
      (by decide) (by rfl)
